import Mathlib

set_option maxRecDepth 4000

/-!
Verification of the string-utility core of gestione_anagrafiche
(src/app.py): the similarity ranker built on difflib.SequenceMatcher
and the word-level diff renderer.

Strings are modelled as lists of characters; Python floats are modelled
as exact rationals.  The Python standard library SequenceMatcher is
embedded following the CPython algorithm it is documented to implement:
the incremental longest-matching-block scan (b2j dynamic programming),
the four extension loops (non-junk then junk, left then right), the
recursive subdivision, adjacent-block merging, opcode generation, and
the autojunk popularity rule used by ratio().
-/

set_option maxHeartbeats 1000000

namespace GestSpec

/-- Whitespace predicate of Python str methods (split, strip, isspace),
restricted to the Latin-1 range used by the catalog data. -/
def pyIsSpace (c : Char) : Bool :=
  c.toNat = 32 || (9 ≤ c.toNat && c.toNat ≤ 13) ||
    (28 ≤ c.toNat && c.toNat ≤ 31) || c.toNat = 133 || c.toNat = 160

/-- Python str.lower restricted to the ASCII case map. -/
def pyLower (c : Char) : Char :=
  if 65 ≤ c.toNat ∧ c.toNat ≤ 90 then Char.ofNat (c.toNat + 32) else c

/-- Python str.strip with no argument: drop leading and trailing whitespace. -/
def pyStrip (s : List Char) : List Char :=
  ((s.dropWhile pyIsSpace).reverse.dropWhile pyIsSpace).reverse

def nanLower : List Char := ['n', 'a', 'n']

/-- to_clean_str from src/app.py (lines 65-81), restricted to None and
string inputs: None becomes the empty string; a string is stripped and a
result whose lowercase form is the literal "nan" becomes empty. -/
def to_clean_str : Option (List Char) → List Char
  | none => []
  | some x =>
    let s := pyStrip x
    if s.map pyLower = nanLower then [] else s

theorem length_dropWhile_le {α : Type} (p : α → Bool) (l : List α) :
    (l.dropWhile p).length ≤ l.length := by
  induction l with
  | nil => simp [List.dropWhile]
  | cons c rest ih =>
    rw [List.dropWhile]
    split
    · exact Nat.le_succ_of_le ih
    · simp

/-- Fuel-indexed body of the tokenizer; the fuel only serves structural
recursion and is always sufficient at the call site. -/
def tokenizeAux : ℕ → List Char → List (List Char)
  | 0, _ => []
  | fuel + 1, s =>
    match s with
    | [] => []
    | c :: rest =>
      (c :: rest.takeWhile (fun d => pyIsSpace d == pyIsSpace c)) ::
        tokenizeAux fuel (rest.dropWhile (fun d => pyIsSpace d == pyIsSpace c))

/-- The tokenizer _tokenize_keep_spaces from src/app.py (lines 121-123):
the regex findall of maximal whitespace runs and maximal non-whitespace
runs, left to right. -/
def tokenize_keep_spaces (s : List Char) : List (List Char) :=
  tokenizeAux s.length s

theorem tokenizeAux_congr (fuel : ℕ) :
    ∀ (fuel' : ℕ) (s : List Char), s.length ≤ fuel → s.length ≤ fuel' →
      tokenizeAux fuel s = tokenizeAux fuel' s := by
  induction fuel with
  | zero =>
    intro fuel' s h h'
    match s with
    | [] => cases fuel' <;> rfl
    | c :: rest => simp at h
  | succ fuel ih =>
    intro fuel' s h h'
    match s with
    | [] => cases fuel' <;> rfl
    | c :: rest =>
      match fuel' with
      | 0 => simp at h'
      | fuel'' + 1 =>
        rw [tokenizeAux, tokenizeAux]
        have hd := length_dropWhile_le (fun d => pyIsSpace d == pyIsSpace c) rest
        simp only [List.length_cons] at h h'
        rw [ih fuel'' _ (by omega) (by omega)]

/-- The defining equation of the tokenizer on a non-empty string. -/
theorem tokenize_keep_spaces_cons (c : Char) (rest : List Char) :
    tokenize_keep_spaces (c :: rest) =
      (c :: rest.takeWhile (fun d => pyIsSpace d == pyIsSpace c)) ::
        tokenize_keep_spaces (rest.dropWhile (fun d => pyIsSpace d == pyIsSpace c)) := by
  show tokenizeAux (rest.length + 1) (c :: rest) = _
  rw [tokenizeAux]
  unfold tokenize_keep_spaces
  rw [tokenizeAux_congr rest.length _ _ (length_dropWhile_le _ _) (le_refl _)]

/-- Python s.split() with no argument: the maximal non-whitespace runs. -/
def pySplitWs (s : List Char) : List (List Char) :=
  (tokenize_keep_spaces s).filter
    (fun t => match t with | [] => false | c :: _ => !pyIsSpace c)

/-- Python " ".join. -/
def joinSpace : List (List Char) → List Char := List.intercalate [' ']

/-- normalize_spaces from src/app.py (lines 83-85). -/
def normalize_spaces (x : Option (List Char)) : List Char :=
  joinSpace (pySplitWs (to_clean_str x))

/-- The preprocessed input of str_similarity: normalize_spaces then lower. -/
def prepSim (x : Option (List Char)) : List Char :=
  (normalize_spaces x).map pyLower

section SeqMatcher

variable {α : Type} [DecidableEq α]

/-- A position pair (i, j) where a[i] and b[j] exist, are equal, and b[j]
is not junk: exactly the pairs visited by the b2j loop of
find_longest_match. -/
def entryMatch (a b : List α) (junk : α → Bool) (i j : ℕ) : Bool :=
  match a.get? i, b.get? j with
  | some x, some y => decide (x = y) && !junk y
  | _, _ => false

/-- A position pair where a[i] and b[j] exist, are equal, and b[j] IS
junk: the pairs accepted by the junk extension loops. -/
def entryJunkMatch (a b : List α) (junk : α → Bool) (i j : ℕ) : Bool :=
  match a.get? i, b.get? j with
  | some x, some y => decide (x = y) && junk y
  | _, _ => false

/-- The value newj2len[j] of the find_longest_match dynamic program at
row i: the length of the maximal non-junk matching run ending at (i, j)
and staying inside [alo, <) x [blo, <). -/
def runlen (a b : List α) (junk : α → Bool) (alo blo : ℕ) : ℕ → ℕ → ℕ
  | 0, j => if entryMatch a b junk 0 j then 1 else 0
  | i + 1, j =>
    if entryMatch a b junk (i + 1) j then
      if alo < i + 1 ∧ blo < j then runlen a b junk alo blo i (j - 1) + 1
      else 1
    else 0

/-- Uniform defining equation of runlen. -/
theorem runlen_eq (a b : List α) (junk : α → Bool) (alo blo i j : ℕ) :
    runlen a b junk alo blo i j =
      if entryMatch a b junk i j then
        if alo < i ∧ blo < j then runlen a b junk alo blo (i - 1) (j - 1) + 1
        else 1
      else 0 := by
  cases i with
  | zero =>
    rw [runlen]
    have h : ¬(alo < 0 ∧ blo < j) := by omega
    rw [if_neg h]
  | succ i => rfl

/-- The index pairs scanned by the two nested loops of
find_longest_match, in scan order (i ascending, then j ascending). -/
def pairsL (alo ahi blo bhi : ℕ) : List (ℕ × ℕ) :=
  (List.range' alo (ahi - alo)).flatMap
    (fun i => (List.range' blo (bhi - blo)).map (fun j => (i, j)))

/-- One iteration of the main loop of find_longest_match: replace the
best block so far when the run ending at p is strictly longer, storing
the block in start form (i-k+1, j-k+1, k). -/
def scanStep (a b : List α) (junk : α → Bool) (alo blo : ℕ)
    (best : ℕ × ℕ × ℕ) (p : ℕ × ℕ) : ℕ × ℕ × ℕ :=
  let k := runlen a b junk alo blo p.1 p.2
  if k > best.2.2 then (p.1 + 1 - k, p.2 + 1 - k, k) else best

/-- The main loop of find_longest_match: keep the first block that
strictly improves on the best size so far. -/
def scanBest (a b : List α) (junk : α → Bool) (alo ahi blo bhi : ℕ) :
    ℕ × ℕ × ℕ :=
  (pairsL alo ahi blo bhi).foldl (scanStep a b junk alo blo) (alo, blo, 0)

/-- One of the two leftward extension while-loops of find_longest_match
(cond selects non-junk or junk matches). -/
def extLeft (cond : ℕ → ℕ → Bool) (alo blo : ℕ) : ℕ → ℕ → ℕ → ℕ × ℕ × ℕ
  | 0, j, k => (0, j, k)
  | i + 1, j, k =>
    if alo < i + 1 ∧ blo < j ∧ cond i (j - 1) then
      extLeft cond alo blo i (j - 1) (k + 1)
    else (i + 1, j, k)

/-- Uniform defining equation of extLeft. -/
theorem extLeft_eq (cond : ℕ → ℕ → Bool) (alo blo i j k : ℕ) :
    extLeft cond alo blo i j k =
      if alo < i ∧ blo < j ∧ cond (i - 1) (j - 1) then
        extLeft cond alo blo (i - 1) (j - 1) (k + 1)
      else (i, j, k) := by
  cases i with
  | zero =>
    rw [extLeft]
    have h : ¬(alo < 0 ∧ blo < j ∧ cond (0 - 1) (j - 1)) := by
      intro hc; omega
    rw [if_neg h]
  | succ i => rfl

/-- Fuel-indexed body of the rightward extension while-loop; the call
site passes exactly the remaining room so the fuel never runs out. -/
def extRightAux (cond : ℕ → ℕ → Bool) (ahi bhi i j : ℕ) : ℕ → ℕ → ℕ
  | 0, k => k
  | fuel + 1, k =>
    if i + k < ahi ∧ j + k < bhi ∧ cond (i + k) (j + k) then
      extRightAux cond ahi bhi i j fuel (k + 1)
    else k

/-- One of the two rightward extension while-loops of find_longest_match. -/
def extRight (cond : ℕ → ℕ → Bool) (ahi bhi : ℕ) (i j : ℕ) (k : ℕ) : ℕ :=
  extRightAux cond ahi bhi i j (ahi - (i + k)) k

/-- Uniform defining equation of extRight. -/
theorem extRight_eq (cond : ℕ → ℕ → Bool) (ahi bhi i j k : ℕ) :
    extRight cond ahi bhi i j k =
      if i + k < ahi ∧ j + k < bhi ∧ cond (i + k) (j + k) then
        extRight cond ahi bhi i j (k + 1)
      else k := by
  unfold extRight
  by_cases hr : i + k < ahi
  · have hfe : ahi - (i + k) = (ahi - (i + k + 1)) + 1 := by omega
    rw [hfe, extRightAux]
    by_cases hc : i + k < ahi ∧ j + k < bhi ∧ cond (i + k) (j + k)
    · rw [if_pos hc, if_pos hc]
      rfl
    · rw [if_neg hc, if_neg hc]
  · have hfe : ahi - (i + k) = 0 := by omega
    rw [hfe, extRightAux]
    have hc : ¬(i + k < ahi ∧ j + k < bhi ∧ cond (i + k) (j + k)) := by
      intro hcc; omega
    rw [if_neg hc]

/-- find_longest_match of difflib.SequenceMatcher: the dynamic-program
scan followed by the four extension loops (non-junk left, non-junk
right, junk left, junk right). -/
def findLongestMatch (a b : List α) (junk : α → Bool) (alo ahi blo bhi : ℕ) :
    ℕ × ℕ × ℕ :=
  let s0 := scanBest a b junk alo ahi blo bhi
  let s1 := extLeft (entryMatch a b junk) alo blo s0.1 s0.2.1 s0.2.2
  let k2 := extRight (entryMatch a b junk) ahi bhi s1.1 s1.2.1 s1.2.2
  let s3 := extLeft (entryJunkMatch a b junk) alo blo s1.1 s1.2.1 k2
  let k4 := extRight (entryJunkMatch a b junk) ahi bhi s3.1 s3.2.1 s3.2.2
  (s3.1, s3.2.1, k4)

/-- Well-formedness of a find_longest_match candidate (i, j, k) for the
queried region: either the empty answer at the region origin, or a
non-empty block inside the region. -/
def FlmInv (alo ahi blo bhi i j k : ℕ) : Prop :=
  (k = 0 ∧ i = alo ∧ j = blo) ∨
    (0 < k ∧ alo ≤ i ∧ i + k ≤ ahi ∧ blo ≤ j ∧ j + k ≤ bhi)

theorem runlen_le (a b : List α) (junk : α → Bool) (alo blo : ℕ) :
    ∀ i j, alo ≤ i → blo ≤ j →
      runlen a b junk alo blo i j ≤ i + 1 - alo ∧
      runlen a b junk alo blo i j ≤ j + 1 - blo := by
  intro i
  induction i using Nat.strong_induction_on with
  | _ i ih =>
    intro j hi hj
    rw [runlen_eq]
    split
    · split
      · rename_i h
        have := ih (i - 1) (by omega) (j - 1) (by omega) (by omega)
        omega
      · omega
    · omega

theorem mem_pairsL {alo ahi blo bhi : ℕ} {p : ℕ × ℕ} :
    p ∈ pairsL alo ahi blo bhi ↔
      alo ≤ p.1 ∧ p.1 < ahi ∧ blo ≤ p.2 ∧ p.2 < bhi := by
  unfold pairsL
  simp only [List.mem_flatMap, List.mem_map, List.mem_range'_1]
  constructor
  · rintro ⟨i, hi, j, hj, rfl⟩
    omega
  · rintro ⟨h1, h2, h3, h4⟩
    exact ⟨p.1, by omega, p.2, by omega, rfl⟩

/-- Strict lexicographic order on index pairs: the visit order of the
two nested scan loops. -/
def lexLt (p q : ℕ × ℕ) : Prop :=
  p.1 < q.1 ∨ (p.1 = q.1 ∧ p.2 < q.2)

instance : DecidableRel lexLt := fun p q => by
  unfold lexLt; infer_instance

theorem pairsL_pairwise (alo ahi blo bhi : ℕ) :
    (pairsL alo ahi blo bhi).Pairwise lexLt := by
  unfold pairsL
  generalize ahi - alo = n
  induction n generalizing alo with
  | zero => simp
  | succ n ih =>
    rw [List.range'_succ, List.flatMap_cons]
    apply List.pairwise_append.mpr
    refine ⟨?_, ih (alo + 1), ?_⟩
    · rw [List.pairwise_map]
      apply List.Pairwise.imp ?_ (List.pairwise_lt_range' blo (bhi - blo))
      intro j1 j2 h
      right
      exact ⟨rfl, h⟩
    · intro p hp q hq
      obtain ⟨j, _, rfl⟩ := List.mem_map.mp hp
      obtain ⟨i, hi, hq2⟩ := List.mem_flatMap.mp hq
      obtain ⟨j', _, rfl⟩ := List.mem_map.mp hq2
      have hge := (List.mem_range'_1.mp hi).1
      left
      simp only
      omega

/-- Characterization of a fold that keeps the first strict improvement
of a score: the result is either the unchanged start (no element beats
it), or the stored image of the first element realizing the maximal
score. -/
theorem foldl_firstmax {β γ : Type} (score : β → ℕ) (store : β → γ)
    (sz : γ → ℕ) (step : γ → β → γ)
    (hstep : ∀ acc p, step acc p = if score p > sz acc then store p else acc)
    (hsz : ∀ p, sz (store p) = score p) :
    ∀ (L : List β) (acc : γ),
      (L.foldl step acc = acc ∧ ∀ p ∈ L, score p ≤ sz acc) ∨
      (∃ pre p post, L = pre ++ p :: post ∧ L.foldl step acc = store p ∧
        sz acc < score p ∧ (∀ q ∈ pre, score q < score p) ∧
        (∀ q ∈ L, score q ≤ score p)) := by
  intro L
  induction L with
  | nil => intro acc; left; exact ⟨rfl, by simp⟩
  | cons p L ihL =>
    intro acc
    rw [List.foldl_cons, hstep]
    by_cases hgt : score p > sz acc
    · rw [if_pos hgt]
      rcases ihL (store p) with ⟨heq, hall⟩ | ⟨pre, q, post, hsplit, heq, hlt, hpre, hall⟩
      · right
        refine ⟨[], p, L, rfl, heq, hgt, by simp, ?_⟩
        intro q hq
        rcases List.mem_cons.mp hq with rfl | hq
        · exact le_refl _
        · have := hall q hq
          rw [hsz] at this
          exact this
      · right
        rw [hsz] at hlt
        refine ⟨p :: pre, q, post, by simp [hsplit], heq, by omega, ?_, ?_⟩
        · intro r hr
          rcases List.mem_cons.mp hr with rfl | hr
          · exact hlt
          · exact hpre r hr
        · intro r hr
          rcases List.mem_cons.mp hr with rfl | hr
          · omega
          · exact hall r hr
    · rw [if_neg hgt]
      rcases ihL acc with ⟨heq, hall⟩ | ⟨pre, q, post, hsplit, heq, hlt, hpre, hall⟩
      · left
        refine ⟨heq, ?_⟩
        intro q hq
        rcases List.mem_cons.mp hq with rfl | hq
        · omega
        · exact hall q hq
      · right
        refine ⟨p :: pre, q, post, by simp [hsplit], heq, hlt, ?_, ?_⟩
        · intro r hr
          rcases List.mem_cons.mp hr with rfl | hr
          · omega
          · exact hpre r hr
        · intro r hr
          rcases List.mem_cons.mp hr with rfl | hr
          · omega
          · exact hall r hr

theorem scanStep_eq (a b : List α) (junk : α → Bool) (alo blo : ℕ)
    (acc : ℕ × ℕ × ℕ) (p : ℕ × ℕ) :
    scanStep a b junk alo blo acc p =
      if runlen a b junk alo blo p.1 p.2 > acc.2.2 then
        (p.1 + 1 - runlen a b junk alo blo p.1 p.2,
         p.2 + 1 - runlen a b junk alo blo p.1 p.2,
         runlen a b junk alo blo p.1 p.2)
      else acc := rfl

/-- First-max characterization of the scanBest loop. -/
theorem scanBest_char (a b : List α) (junk : α → Bool) (alo ahi blo bhi : ℕ) :
    (scanBest a b junk alo ahi blo bhi = (alo, blo, 0) ∧
      ∀ p ∈ pairsL alo ahi blo bhi, runlen a b junk alo blo p.1 p.2 = 0) ∨
    (∃ pre p post, pairsL alo ahi blo bhi = pre ++ p :: post ∧
      scanBest a b junk alo ahi blo bhi =
        (p.1 + 1 - runlen a b junk alo blo p.1 p.2,
         p.2 + 1 - runlen a b junk alo blo p.1 p.2,
         runlen a b junk alo blo p.1 p.2) ∧
      0 < runlen a b junk alo blo p.1 p.2 ∧
      (∀ q ∈ pre, runlen a b junk alo blo q.1 q.2 <
        runlen a b junk alo blo p.1 p.2) ∧
      (∀ q ∈ pairsL alo ahi blo bhi, runlen a b junk alo blo q.1 q.2 ≤
        runlen a b junk alo blo p.1 p.2)) := by
  have h := foldl_firstmax
    (fun p : ℕ × ℕ => runlen a b junk alo blo p.1 p.2)
    (fun p : ℕ × ℕ => (p.1 + 1 - runlen a b junk alo blo p.1 p.2,
      p.2 + 1 - runlen a b junk alo blo p.1 p.2,
      runlen a b junk alo blo p.1 p.2))
    (fun t : ℕ × ℕ × ℕ => t.2.2)
    (scanStep a b junk alo blo)
    (fun acc p => scanStep_eq a b junk alo blo acc p)
    (fun p => rfl)
    (pairsL alo ahi blo bhi) (alo, blo, 0)
  rcases h with ⟨heq, hall⟩ | ⟨pre, p, post, hsplit, heq, hlt, hpre, hall⟩
  · left
    exact ⟨heq, fun p hp => by have := hall p hp; simp only at this; omega⟩
  · right
    exact ⟨pre, p, post, hsplit, heq, by simpa using hlt, hpre, hall⟩

/-- The split point of a pairwise-sorted list bounds its prefix. -/
theorem pre_of_sorted_split {L pre post : List (ℕ × ℕ)} {x q : ℕ × ℕ}
    (hsort : L.Pairwise lexLt) (hsplit : L = pre ++ x :: post)
    (hq : q ∈ L) (hlx : lexLt q x) : q ∈ pre := by
  subst hsplit
  rcases List.mem_append.mp hq with hq | hq
  · exact hq
  · rcases List.mem_cons.mp hq with rfl | hq
    · exfalso
      unfold lexLt at hlx
      omega
    · exfalso
      have hcross := (List.pairwise_append.mp hsort).2.1
      have := (List.pairwise_cons.mp hcross).1 q hq
      unfold lexLt at hlx this
      omega

/-- Computation rule for scanBest given an explicit first maximum. -/
theorem scanBest_eq_of {a b : List α} {junk : α → Bool}
    {alo ahi blo bhi : ℕ} {pi pj K : ℕ}
    (hmem : (pi, pj) ∈ pairsL alo ahi blo bhi)
    (hK : runlen a b junk alo blo pi pj = K) (hKpos : 0 < K)
    (hall : ∀ p ∈ pairsL alo ahi blo bhi,
      runlen a b junk alo blo p.1 p.2 ≤ K)
    (hbef : ∀ p ∈ pairsL alo ahi blo bhi, lexLt p (pi, pj) →
      runlen a b junk alo blo p.1 p.2 < K) :
    scanBest a b junk alo ahi blo bhi = (pi + 1 - K, pj + 1 - K, K) := by
  rcases scanBest_char a b junk alo ahi blo bhi with ⟨_, hzero⟩ |
    ⟨pre, p, post, hsplit, heq, hpos, hpre, hmax⟩
  · have hz := hzero (pi, pj) hmem
    simp only at hz
    omega
  · have hsort := pairsL_pairwise alo ahi blo bhi
    have hpmem : p ∈ pairsL alo ahi blo bhi := by
      rw [hsplit]
      exact List.mem_append_right _ (List.mem_cons_self _ _)
    have h1 := hall p hpmem
    have h2 := hmax (pi, pj) hmem
    simp only at h2
    have hpK : runlen a b junk alo blo p.1 p.2 = K := by omega
    have hpeq : p = (pi, pj) := by
      by_contra hne
      have htri : lexLt p (pi, pj) ∨ lexLt (pi, pj) p := by
        unfold lexLt
        rcases p with ⟨p1, p2⟩
        simp only [Prod.mk.injEq] at hne
        simp only
        omega
      rcases htri with hlx | hlx
      · have hb2 := hbef p hpmem hlx
        omega
      · have hqpre : (pi, pj) ∈ pre :=
          pre_of_sorted_split hsort hsplit hmem hlx
        have hp2 := hpre (pi, pj) hqpre
        simp only at hp2
        omega
    subst hpeq
    simp only at hpK
    rw [heq, hpK]

/-- Computation rule for scanBest when no pair matches. -/
theorem scanBest_eq_zero {a b : List α} {junk : α → Bool}
    {alo ahi blo bhi : ℕ}
    (hzero : ∀ p ∈ pairsL alo ahi blo bhi,
      runlen a b junk alo blo p.1 p.2 = 0) :
    scanBest a b junk alo ahi blo bhi = (alo, blo, 0) := by
  rcases scanBest_char a b junk alo ahi blo bhi with ⟨heq, _⟩ |
    ⟨pre, p, post, hsplit, _, hpos, _, _⟩
  · exact heq
  · exfalso
    have hpmem : p ∈ pairsL alo ahi blo bhi := by
      rw [hsplit]
      exact List.mem_append_right _ (List.mem_cons_self _ _)
    have hz := hzero p hpmem
    omega

/-- Reformulation of quantification over the scanned pairs as nested
bounded quantifiers (evaluation-friendly). -/
theorem forall_pairsL_iff {alo ahi blo bhi : ℕ} {P : ℕ × ℕ → Prop} :
    (∀ p ∈ pairsL alo ahi blo bhi, P p) ↔
      ∀ i < ahi, ∀ j < bhi, alo ≤ i → blo ≤ j → P (i, j) := by
  constructor
  · intro h i hi j hj hai hbj
    exact h (i, j) (mem_pairsL.mpr ⟨hai, hi, hbj, hj⟩)
  · intro h p hp
    obtain ⟨p1, p2⟩ := p
    have hm := mem_pairsL.mp hp
    simp only at hm
    exact h p1 hm.2.1 p2 hm.2.2.2 hm.1 hm.2.2.1

/-- Soundness of runlen: a computed run really matches, stays inside
the window, and consists of non-junk matches. -/
theorem runlen_sound (a b : List α) (junk : α → Bool) (alo blo : ℕ) :
    ∀ i j, ∀ r < runlen a b junk alo blo i j,
      entryMatch a b junk (i - r) (j - r) = true ∧ r ≤ i - alo ∧ r ≤ j - blo := by
  intro i
  induction i using Nat.strong_induction_on with
  | _ i ih =>
    intro j r hr
    rw [runlen_eq] at hr
    by_cases hm : entryMatch a b junk i j = true
    · rw [if_pos hm] at hr
      by_cases hw : alo < i ∧ blo < j
      · rw [if_pos hw] at hr
        match r with
        | 0 => exact ⟨by simpa using hm, by omega, by omega⟩
        | r + 1 =>
          have hrec := ih (i - 1) (by omega) (j - 1) r (by omega)
          have he1 : i - (r + 1) = i - 1 - r := by omega
          have he2 : j - (r + 1) = j - 1 - r := by omega
          rw [he1, he2]
          exact ⟨hrec.1, by omega, by omega⟩
      · rw [if_neg hw] at hr
        have hr0 : r = 0 := by omega
        subst hr0
        exact ⟨by simpa using hm, by omega, by omega⟩
    · rw [if_neg hm] at hr
      omega

/-- Completeness of runlen: a backward chain of non-junk matches inside
the window forces at least that run length. -/
theorem runlen_complete (a b : List α) (junk : α → Bool) (alo blo : ℕ) :
    ∀ i j m, (∀ r < m, entryMatch a b junk (i - r) (j - r) = true) →
      m ≤ i + 1 - alo → m ≤ j + 1 - blo → alo ≤ i → blo ≤ j →
      m ≤ runlen a b junk alo blo i j := by
  intro i
  induction i using Nat.strong_induction_on with
  | _ i ih =>
    intro j m hmatch hia hjb hai hbj
    match m with
    | 0 => omega
    | m + 1 =>
      rw [runlen_eq]
      have h0 := hmatch 0 (by omega)
      simp only [Nat.sub_zero] at h0
      rw [if_pos h0]
      by_cases hw : alo < i ∧ blo < j
      · rw [if_pos hw]
        have hrec : m ≤ runlen a b junk alo blo (i - 1) (j - 1) := by
          apply ih (i - 1) (by omega) (j - 1) m ?_ (by omega) (by omega)
            (by omega) (by omega)
          intro r hr
          have := hmatch (r + 1) (by omega)
          have he1 : i - (r + 1) = i - 1 - r := by omega
          have he2 : j - (r + 1) = j - 1 - r := by omega
          rw [he1, he2] at this
          exact this
        omega
      · rw [if_neg hw]
        omega

theorem extLeft_noop (cond : ℕ → ℕ → Bool) (alo blo i j k : ℕ)
    (h : ¬(alo < i ∧ blo < j ∧ cond (i - 1) (j - 1) = true)) :
    extLeft cond alo blo i j k = (i, j, k) := by
  rw [extLeft_eq, if_neg]
  intro hc
  exact h ⟨hc.1, hc.2.1, hc.2.2⟩

theorem extRight_noop (cond : ℕ → ℕ → Bool) (ahi bhi i j k : ℕ)
    (h : ¬(i + k < ahi ∧ j + k < bhi ∧ cond (i + k) (j + k) = true)) :
    extRight cond ahi bhi i j k = k := by
  rw [extRight_eq, if_neg]
  intro hc
  exact h ⟨hc.1, hc.2.1, hc.2.2⟩

theorem entryJunkMatch_false {a b : List α} {junk : α → Bool}
    (hj : ∀ v, junk v = false) (i j : ℕ) :
    entryJunkMatch a b junk i j = false := by
  unfold entryJunkMatch
  cases ha : a.get? i <;> cases hb : b.get? j <;> simp [hj]

/-- A positive runlen needs a match at its end position. -/
theorem runlen_pos_iff (a b : List α) (junk : α → Bool) (alo blo i j : ℕ) :
    0 < runlen a b junk alo blo i j ↔ entryMatch a b junk i j = true := by
  rw [runlen_eq]
  by_cases hm : entryMatch a b junk i j = true
  · rw [if_pos hm]
    constructor
    · intro _; exact hm
    · intro _
      by_cases hw : alo < i ∧ blo < j
      · rw [if_pos hw]; omega
      · rw [if_neg hw]; omega
  · rw [if_neg hm]
    constructor
    · intro h; omega
    · intro h; exact absurd h hm

/-- Without junk the two junk extension loops never fire and the two
non-junk extension loops cannot improve on the maximal scanned run, so
find_longest_match is exactly the scan result. -/
theorem findLongestMatch_nojunk (a b : List α) (junk : α → Bool)
    (hj : ∀ v, junk v = false) (alo ahi blo bhi : ℕ) :
    findLongestMatch a b junk alo ahi blo bhi =
      scanBest a b junk alo ahi blo bhi := by
  unfold findLongestMatch
  rcases scanBest_char a b junk alo ahi blo bhi with ⟨heq, hzero⟩ |
    ⟨pre, p, post, hsplit, heq, hpos, hpre, hmax⟩
  · rw [heq]
    have hl1 : extLeft (entryMatch a b junk) alo blo alo blo 0 = (alo, blo, 0) := by
      apply extLeft_noop
      intro hc
      omega
    have hr1 : extRight (entryMatch a b junk) ahi bhi alo blo 0 = 0 := by
      apply extRight_noop
      intro hc
      have hm : entryMatch a b junk alo blo = true := by
        have := hc.2.2
        simpa using this
      have hrl : 0 < runlen a b junk alo blo alo blo :=
        (runlen_pos_iff a b junk alo blo alo blo).mpr hm
      have hz := hzero (alo, blo) (mem_pairsL.mpr ⟨le_refl _, by omega,
        le_refl _, by omega⟩)
      simp only at hz
      omega
    have hl2 : extLeft (entryJunkMatch a b junk) alo blo alo blo 0 = (alo, blo, 0) := by
      apply extLeft_noop
      intro hc
      rw [entryJunkMatch_false hj] at hc
      simp at hc
    have hr2 : extRight (entryJunkMatch a b junk) ahi bhi alo blo 0 = 0 := by
      apply extRight_noop
      intro hc
      rw [entryJunkMatch_false hj] at hc
      simp at hc
    simp only [hl1, hr1, hl2, hr2]
  · rw [heq]
    have hpmem : p ∈ pairsL alo ahi blo bhi := by
      rw [hsplit]
      exact List.mem_append_right _ (List.mem_cons_self _ _)
    have hpm := mem_pairsL.mp hpmem
    have hrl := runlen_le a b junk alo blo p.1 p.2 hpm.1 hpm.2.2.1
    set K := runlen a b junk alo blo p.1 p.2 with hK
    have hl1 : extLeft (entryMatch a b junk) alo blo (p.1 + 1 - K)
        (p.2 + 1 - K) K = (p.1 + 1 - K, p.2 + 1 - K, K) := by
      apply extLeft_noop
      intro hc
      have hm : entryMatch a b junk (p.1 + 1 - K - 1) (p.2 + 1 - K - 1) = true := by
        have := hc.2.2
        simpa using this
      have hcomp : K + 1 ≤ runlen a b junk alo blo p.1 p.2 := by
        apply runlen_complete a b junk alo blo p.1 p.2 (K + 1) ?_
          (by omega) (by omega) (by omega) (by omega)
        intro r hr
        by_cases hrK : r < K
        · exact (runlen_sound a b junk alo blo p.1 p.2 r (by omega)).1
        · have hreq : r = K := by omega
          subst hreq
          have he1 : p.1 - K = p.1 + 1 - K - 1 := by omega
          have he2 : p.2 - K = p.2 + 1 - K - 1 := by omega
          rw [he1, he2]
          exact hm
      omega
    have hr1 : extRight (entryMatch a b junk) ahi bhi (p.1 + 1 - K)
        (p.2 + 1 - K) K = K := by
      apply extRight_noop
      intro hc
      have hm : entryMatch a b junk (p.1 + 1) (p.2 + 1) = true := by
        have h3 := hc.2.2
        have he1 : p.1 + 1 - K + K = p.1 + 1 := by omega
        have he2 : p.2 + 1 - K + K = p.2 + 1 := by omega
        rw [he1, he2] at h3
        simpa using h3
      have hmemq : (p.1 + 1, p.2 + 1) ∈ pairsL alo ahi blo bhi := by
        apply mem_pairsL.mpr
        have h1 := hc.1
        have h2 := hc.2.1
        refine ⟨by omega, by omega, by omega, by omega⟩
      have hcomp : K + 1 ≤ runlen a b junk alo blo (p.1 + 1) (p.2 + 1) := by
        apply runlen_complete a b junk alo blo (p.1 + 1) (p.2 + 1) (K + 1) ?_
          (by omega) (by omega) (by omega) (by omega)
        intro r hr
        match r with
        | 0 => simpa using hm
        | r + 1 =>
          have he1 : p.1 + 1 - (r + 1) = p.1 - r := by omega
          have he2 : p.2 + 1 - (r + 1) = p.2 - r := by omega
          rw [he1, he2]
          exact (runlen_sound a b junk alo blo p.1 p.2 r (by omega)).1
      have := hmax (p.1 + 1, p.2 + 1) hmemq
      simp only at this
      omega
    have hl2 : extLeft (entryJunkMatch a b junk) alo blo (p.1 + 1 - K)
        (p.2 + 1 - K) K = (p.1 + 1 - K, p.2 + 1 - K, K) := by
      apply extLeft_noop
      intro hc
      rw [entryJunkMatch_false hj] at hc
      simp at hc
    have hr2 : extRight (entryJunkMatch a b junk) ahi bhi (p.1 + 1 - K)
        (p.2 + 1 - K) K = K := by
      apply extRight_noop
      intro hc
      rw [entryJunkMatch_false hj] at hc
      simp at hc
    simp only [hl1, hr1, hl2, hr2]

theorem scanStep_inv {a b : List α} {junk : α → Bool} {alo ahi blo bhi : ℕ}
    {acc : ℕ × ℕ × ℕ} {p : ℕ × ℕ}
    (hp : p ∈ pairsL alo ahi blo bhi)
    (hacc : FlmInv alo ahi blo bhi acc.1 acc.2.1 acc.2.2) :
    FlmInv alo ahi blo bhi (scanStep a b junk alo blo acc p).1
      (scanStep a b junk alo blo acc p).2.1
      (scanStep a b junk alo blo acc p).2.2 := by
  obtain ⟨pi, pj⟩ := p
  obtain ⟨ai, aj, ak⟩ := acc
  have hreg := mem_pairsL.mp hp
  simp only at hreg
  have hrl := runlen_le a b junk alo blo pi pj hreg.1 hreg.2.2.1
  unfold scanStep
  dsimp only
  split
  · rename_i hgt
    unfold FlmInv
    dsimp only
    right
    omega
  · exact hacc

theorem scanBest_inv (a b : List α) (junk : α → Bool) (alo ahi blo bhi : ℕ) :
    FlmInv alo ahi blo bhi (scanBest a b junk alo ahi blo bhi).1
      (scanBest a b junk alo ahi blo bhi).2.1
      (scanBest a b junk alo ahi blo bhi).2.2 := by
  unfold scanBest
  have h : ∀ (L : List (ℕ × ℕ)) (acc : ℕ × ℕ × ℕ),
      (∀ p ∈ L, p ∈ pairsL alo ahi blo bhi) →
      FlmInv alo ahi blo bhi acc.1 acc.2.1 acc.2.2 →
      FlmInv alo ahi blo bhi
        (L.foldl (scanStep a b junk alo blo) acc).1
        (L.foldl (scanStep a b junk alo blo) acc).2.1
        (L.foldl (scanStep a b junk alo blo) acc).2.2 := by
    intro L
    induction L with
    | nil => intro acc _ hacc; exact hacc
    | cons p L ihL =>
      intro acc hmem hacc
      simp only [List.foldl_cons]
      exact ihL _ (fun q hq => hmem q (List.mem_cons_of_mem _ hq))
        (scanStep_inv (hmem p (List.mem_cons_self _ _)) hacc)
  exact h _ _ (fun p hp => hp) (Or.inl ⟨rfl, rfl, rfl⟩)

theorem extLeft_inv (cond : ℕ → ℕ → Bool) {alo ahi blo bhi : ℕ} :
    ∀ i j k, FlmInv alo ahi blo bhi i j k →
      FlmInv alo ahi blo bhi (extLeft cond alo blo i j k).1
        (extLeft cond alo blo i j k).2.1 (extLeft cond alo blo i j k).2.2 := by
  intro i
  induction i using Nat.strong_induction_on with
  | _ i ih =>
    intro j k hinv
    rw [extLeft_eq]
    split
    · rename_i h
      apply ih (i - 1) (by omega)
      unfold FlmInv at *
      rcases hinv with ⟨hk, hi, hj⟩ | ⟨hk, h1, h2, h3, h4⟩
      · omega
      · right; omega
    · exact hinv

theorem extRight_inv (cond : ℕ → ℕ → Bool) {alo blo : ℕ} (ahi bhi : ℕ)
    (i j : ℕ) :
    ∀ k, FlmInv alo ahi blo bhi i j k →
      FlmInv alo ahi blo bhi i j (extRight cond ahi bhi i j k) := by
  have hgen : ∀ n k, ahi - (i + k) ≤ n → FlmInv alo ahi blo bhi i j k →
      FlmInv alo ahi blo bhi i j (extRight cond ahi bhi i j k) := by
    intro n
    induction n with
    | zero =>
      intro k hn hinv
      rw [extRight_eq]
      split
      · rename_i h; omega
      · exact hinv
    | succ n ihn =>
      intro k hn hinv
      rw [extRight_eq]
      split
      · rename_i h
        apply ihn (k + 1) (by omega)
        unfold FlmInv at *
        rcases hinv with ⟨hk, hi, hj⟩ | ⟨hk, h1, h2, h3, h4⟩
        · right; omega
        · right; omega
      · exact hinv
  intro k hinv
  exact hgen (ahi - (i + k)) k (le_refl _) hinv

theorem findLongestMatch_inv (a b : List α) (junk : α → Bool)
    (alo ahi blo bhi : ℕ) :
    FlmInv alo ahi blo bhi (findLongestMatch a b junk alo ahi blo bhi).1
      (findLongestMatch a b junk alo ahi blo bhi).2.1
      (findLongestMatch a b junk alo ahi blo bhi).2.2 := by
  unfold findLongestMatch
  have h0 := scanBest_inv a b junk alo ahi blo bhi
  have h1 := @extLeft_inv (entryMatch a b junk) alo ahi blo bhi
    (scanBest a b junk alo ahi blo bhi).1 (scanBest a b junk alo ahi blo bhi).2.1
    (scanBest a b junk alo ahi blo bhi).2.2 h0
  have h2 := @extRight_inv (entryMatch a b junk) alo blo ahi bhi
    _ _ _ h1
  have h3 := @extLeft_inv (entryJunkMatch a b junk) alo ahi blo bhi
    _ _ _ h2
  have h4 := @extRight_inv (entryJunkMatch a b junk) alo blo
    ahi bhi _ _ _ h3
  exact h4

/-- Bounds form of the invariant, used for termination of the
recursive subdivision. -/
theorem findLongestMatch_bounds (a b : List α) (junk : α → Bool)
    {alo ahi blo bhi i j k : ℕ}
    (h : findLongestMatch a b junk alo ahi blo bhi = (i, j, k)) (hk : 0 < k) :
    alo ≤ i ∧ i + k ≤ ahi ∧ blo ≤ j ∧ j + k ≤ bhi := by
  have hi := findLongestMatch_inv a b junk alo ahi blo bhi
  rw [h] at hi
  rcases hi with ⟨h0, _, _⟩ | ⟨_, h1, h2, h3, h4⟩
  · simp only at h0; omega
  · exact ⟨h1, h2, h3, h4⟩

/-- find_longest_match on an empty row range is the empty answer. -/
theorem findLongestMatch_empty (a b : List α) (junk : α → Bool)
    {alo ahi : ℕ} (blo bhi : ℕ) (h : ahi ≤ alo) :
    findLongestMatch a b junk alo ahi blo bhi = (alo, blo, 0) := by
  have hscan : scanBest a b junk alo ahi blo bhi = (alo, blo, 0) := by
    unfold scanBest pairsL
    rw [show ahi - alo = 0 from by omega]
    rfl
  unfold findLongestMatch
  rw [hscan]
  have hl1 : extLeft (entryMatch a b junk) alo blo alo blo 0 = (alo, blo, 0) := by
    rw [extLeft_eq, if_neg]; intro hc; omega
  dsimp only
  rw [hl1]
  dsimp only
  have hr1 : extRight (entryMatch a b junk) ahi bhi alo blo 0 = 0 := by
    rw [extRight_eq, if_neg]; intro hc; omega
  rw [hr1]
  have hl2 : extLeft (entryJunkMatch a b junk) alo blo alo blo 0 = (alo, blo, 0) := by
    rw [extLeft_eq, if_neg]; intro hc; omega
  rw [hl2]
  dsimp only
  have hr2 : extRight (entryJunkMatch a b junk) ahi bhi alo blo 0 = 0 := by
    rw [extRight_eq, if_neg]; intro hc; omega
  rw [hr2]

/-- Fuel-indexed recursive subdivision of get_matching_blocks; the fuel
bounds the row-range width and is always sufficient at the call site. -/
def matchingBlocksAux (a b : List α) (junk : α → Bool) :
    ℕ → ℕ → ℕ → ℕ → ℕ → List (ℕ × ℕ × ℕ)
  | 0, _, _, _, _ => []
  | fuel + 1, alo, ahi, blo, bhi =>
    match findLongestMatch a b junk alo ahi blo bhi with
    | (i, j, k) =>
      if 0 < k then
        matchingBlocksAux a b junk fuel alo i blo j ++
          (i, j, k) :: matchingBlocksAux a b junk fuel (i + k) ahi (j + k) bhi
      else []

/-- The recursive subdivision of get_matching_blocks: blocks of the
region left of the longest match, the match, blocks right of it.
difflib computes the same multiset with an explicit queue and then
sorts; the recursion yields the sorted order directly. -/
def matchingBlocksRec (a b : List α) (junk : α → Bool)
    (alo ahi blo bhi : ℕ) : List (ℕ × ℕ × ℕ) :=
  matchingBlocksAux a b junk (ahi - alo) alo ahi blo bhi

theorem matchingBlocksAux_congr (a b : List α) (junk : α → Bool) (fuel : ℕ) :
    ∀ (fuel' alo ahi blo bhi : ℕ), ahi - alo ≤ fuel → ahi - alo ≤ fuel' →
      matchingBlocksAux a b junk fuel alo ahi blo bhi =
        matchingBlocksAux a b junk fuel' alo ahi blo bhi := by
  induction fuel with
  | zero =>
    intro fuel' alo ahi blo bhi h h'
    match fuel' with
    | 0 => rfl
    | fuel'' + 1 =>
      rw [matchingBlocksAux, matchingBlocksAux,
        findLongestMatch_empty a b junk blo bhi (by omega)]
      simp
  | succ fuel ih =>
    intro fuel' alo ahi blo bhi h h'
    match fuel' with
    | 0 =>
      rw [matchingBlocksAux, matchingBlocksAux,
        findLongestMatch_empty a b junk blo bhi (by omega)]
      simp
    | fuel'' + 1 =>
      rw [matchingBlocksAux, matchingBlocksAux]
      match hm : findLongestMatch a b junk alo ahi blo bhi with
      | (i, j, k) =>
        dsimp only
        by_cases hk : 0 < k
        · have hb := findLongestMatch_bounds a b junk hm hk
          rw [if_pos hk, if_pos hk,
            ih fuel'' alo i blo j (by omega) (by omega),
            ih fuel'' (i + k) ahi (j + k) bhi (by omega) (by omega)]
        · rw [if_neg hk, if_neg hk]

/-- The defining equation of the recursive subdivision. -/
theorem matchingBlocksRec_eq (a b : List α) (junk : α → Bool)
    (alo ahi blo bhi : ℕ) :
    matchingBlocksRec a b junk alo ahi blo bhi =
      match findLongestMatch a b junk alo ahi blo bhi with
      | (i, j, k) =>
        if 0 < k then
          matchingBlocksRec a b junk alo i blo j ++
            (i, j, k) :: matchingBlocksRec a b junk (i + k) ahi (j + k) bhi
        else [] := by
  unfold matchingBlocksRec
  match hf : ahi - alo with
  | 0 =>
    rw [matchingBlocksAux, findLongestMatch_empty a b junk blo bhi (by omega)]
    simp
  | fuel + 1 =>
    rw [matchingBlocksAux]
    match hm : findLongestMatch a b junk alo ahi blo bhi with
    | (i, j, k) =>
      dsimp only
      by_cases hk : 0 < k
      · have hb := findLongestMatch_bounds a b junk hm hk
        rw [if_pos hk, if_pos hk,
          matchingBlocksAux_congr a b junk fuel (i - alo) alo i blo j
            (by omega) (by omega),
          matchingBlocksAux_congr a b junk fuel (ahi - (i + k)) (i + k) ahi
            (j + k) bhi (by omega) (by omega)]
      · rw [if_neg hk, if_neg hk]

/-- The adjacent-block merging loop of get_matching_blocks, with its
carried candidate block (i1, j1, k1) starting from (0, 0, 0). -/
def mergeLoop : ℕ × ℕ × ℕ → List (ℕ × ℕ × ℕ) → List (ℕ × ℕ × ℕ)
  | (i1, j1, k1), [] => if k1 ≠ 0 then [(i1, j1, k1)] else []
  | (i1, j1, k1), (i2, j2, k2) :: rest =>
    if i1 + k1 = i2 ∧ j1 + k1 = j2 then mergeLoop (i1, j1, k1 + k2) rest
    else (if k1 ≠ 0 then [(i1, j1, k1)] else []) ++ mergeLoop (i2, j2, k2) rest

/-- get_matching_blocks: recursive subdivision, adjacent merging, and
the final sentinel (len a, len b, 0). -/
def getMatchingBlocks (a b : List α) (junk : α → Bool) : List (ℕ × ℕ × ℕ) :=
  mergeLoop (0, 0, 0) (matchingBlocksRec a b junk 0 a.length 0 b.length) ++
    [(a.length, b.length, 0)]

/-- Opcode tags of get_opcodes. -/
inductive DTag where
  | equal | delete | insert | replace
deriving DecidableEq, Repr

/-- The loop of get_opcodes: for each block, first the tag of the gap
before it (replace, delete or insert, skipped when empty), then the
equal span of the block itself (skipped when the block size is 0). -/
def opcodesLoop : ℕ → ℕ → List (ℕ × ℕ × ℕ) → List (DTag × ℕ × ℕ × ℕ × ℕ)
  | _, _, [] => []
  | i, j, (ai, bj, sz) :: rest =>
    (if i < ai ∧ j < bj then [(DTag.replace, i, ai, j, bj)]
     else if i < ai then [(DTag.delete, i, ai, j, bj)]
     else if j < bj then [(DTag.insert, i, ai, j, bj)]
     else []) ++
    (if sz ≠ 0 then [(DTag.equal, ai, ai + sz, bj, bj + sz)] else []) ++
    opcodesLoop (ai + sz) (bj + sz) rest

/-- get_opcodes of difflib.SequenceMatcher. -/
def getOpcodes (a b : List α) (junk : α → Bool) :
    List (DTag × ℕ × ℕ × ℕ × ℕ) :=
  opcodesLoop 0 0 (getMatchingBlocks a b junk)

/-- Total matched length: the sum of the block sizes. -/
def sumKs (bs : List (ℕ × ℕ × ℕ)) : ℕ := (bs.map (fun t => t.2.2)).sum

/-- ratio() of difflib.SequenceMatcher (_calculate_ratio), with the
float result modelled exactly as a rational. -/
def smRatioQ (a b : List α) (junk : α → Bool) : ℚ :=
  if a.length + b.length = 0 then 1
  else (2 * (sumKs (getMatchingBlocks a b junk)) : ℚ) / (a.length + b.length)

/-- The autojunk rule of SequenceMatcher.__chain_b: when b has at least
200 elements, the elements occurring more than len(b)/100 + 1 times are
junk. -/
def popularJunk (b : List α) : List α :=
  if 200 ≤ b.length then
    b.dedup.filter (fun x => b.length / 100 + 1 < b.count x)
  else []

end SeqMatcher

/-- str_similarity from src/app.py (lines 113-118): normalize spaces,
lowercase, return 0.0 when either side is empty, else
SequenceMatcher(None, a, b).ratio() with its default autojunk. -/
def str_similarity (x y : Option (List Char)) : ℚ :=
  let a := prepSim x
  let b := prepSim y
  if a = [] ∨ b = [] then 0
  else smRatioQ a b (fun c => (popularJunk b).contains c)

/-- html.escape on one character (quote=True). -/
def escChar (c : Char) : List Char :=
  if c = '&' then "&amp;".toList
  else if c = '<' then "&lt;".toList
  else if c = '>' then "&gt;".toList
  else if c = '"' then "&quot;".toList
  else if c = '\'' then "&#x27;".toList
  else [c]

/-- html.escape on a string. -/
def htmlEscape (s : List Char) : List Char := s.flatMap escChar

/-- Python list slice l[lo:hi] (for lo ≤ hi ≤ len). -/
def sliceL {α : Type} (l : List α) (lo hi : ℕ) : List α :=
  (l.drop lo).take (hi - lo)

/-- The joined, escaped token span "".join(html.escape(t) for t in toks[lo:hi]). -/
def escSeg (toks : List (List Char)) (lo hi : ℕ) : List Char :=
  (sliceL toks lo hi).flatMap htmlEscape

def delOpen : List Char := "<span class=\x27diff-del\x27>".toList
def insOpen : List Char := "<span class=\x27diff-ins\x27>".toList
def spanClose : List Char := "</span>".toList

/-- The rendering loop of diff_old_new_html over the opcode list. -/
def renderOps (a b : List (List Char)) :
    List (DTag × ℕ × ℕ × ℕ × ℕ) → List Char × List Char
  | [] => ([], [])
  | (tag, i1, i2, j1, j2) :: rest =>
    let r := renderOps a b rest
    match tag with
    | DTag.equal => (escSeg a i1 i2 ++ r.1, escSeg b j1 j2 ++ r.2)
    | DTag.delete =>
      let seg := escSeg a i1 i2
      ((if seg ≠ [] then delOpen ++ seg ++ spanClose else []) ++ r.1, r.2)
    | DTag.insert =>
      let seg := escSeg b j1 j2
      (r.1, (if seg ≠ [] then insOpen ++ seg ++ spanClose else []) ++ r.2)
    | DTag.replace =>
      let so := escSeg a i1 i2
      let sn := escSeg b j1 j2
      ((if so ≠ [] then delOpen ++ so ++ spanClose else []) ++ r.1,
       (if sn ≠ [] then insOpen ++ sn ++ spanClose else []) ++ r.2)

/-- diff_old_new_html from src/app.py (lines 125-145): tokenize the
cleaned inputs, align with SequenceMatcher(a=a, b=b, autojunk=False),
and render both marked sides. -/
def diff_old_new_html (old newS : Option (List Char)) : List Char × List Char :=
  let a := tokenize_keep_spaces (to_clean_str old)
  let b := tokenize_keep_spaces (to_clean_str newS)
  renderOps a b (getOpcodes a b (fun _ => false))

section RatcliffSpec

variable {α : Type} [DecidableEq α]

/-- Length of the common prefix of two lists: the length of the
matching run at a given pair of starting positions. -/
def runFrom : List α → List α → ℕ
  | x :: xs, y :: ys => if x = y then runFrom xs ys + 1 else 0
  | _, _ => 0

/-- One selection step of the spec-side longest-common-substring
search: keep the first starting pair with a strictly longer run. -/
def lcsStep (x y : List α) (best : ℕ × ℕ × ℕ) (p : ℕ × ℕ) : ℕ × ℕ × ℕ :=
  let k := runFrom (x.drop p.1) (y.drop p.2)
  if k > best.2.2 then (p.1, p.2, k) else best

/-- Spec-side longest common contiguous substring: the first starting
pair (in left-to-right order on each side) realizing the maximal
matching-run length, as (start in x, start in y, length). -/
def lcsAt (x y : List α) : ℕ × ℕ × ℕ :=
  (pairsL 0 x.length 0 y.length).foldl (lcsStep x y) (0, 0, 0)

theorem runFrom_le (x y : List α) :
    runFrom x y ≤ x.length ∧ runFrom x y ≤ y.length := by
  induction x generalizing y with
  | nil => rw [runFrom.eq_def]; simp
  | cons c xs ih =>
    cases y with
    | nil => rw [runFrom.eq_def]; simp
    | cons d ys =>
      rw [runFrom]
      split
      · have := ih ys
        simp only [List.length_cons]
        omega
      · simp

theorem lcsAt_bounds (x y : List α) :
    lcsAt x y = (0, 0, 0) ∨
      ((lcsAt x y).1 + (lcsAt x y).2.2 ≤ x.length ∧
       (lcsAt x y).2.1 + (lcsAt x y).2.2 ≤ y.length ∧ 0 < (lcsAt x y).2.2) := by
  unfold lcsAt
  have h : ∀ (L : List (ℕ × ℕ)) (acc : ℕ × ℕ × ℕ),
      (∀ p ∈ L, p ∈ pairsL 0 x.length 0 y.length) →
      (acc = (0, 0, 0) ∨ (acc.1 + acc.2.2 ≤ x.length ∧
        acc.2.1 + acc.2.2 ≤ y.length ∧ 0 < acc.2.2)) →
      (L.foldl (lcsStep x y) acc = (0, 0, 0) ∨
        ((L.foldl (lcsStep x y) acc).1 + (L.foldl (lcsStep x y) acc).2.2 ≤
            x.length ∧
         (L.foldl (lcsStep x y) acc).2.1 + (L.foldl (lcsStep x y) acc).2.2 ≤
            y.length ∧
         0 < (L.foldl (lcsStep x y) acc).2.2)) := by
    intro L
    induction L with
    | nil => intro acc _ hacc; exact hacc
    | cons p L ihL =>
      intro acc hmem hacc
      simp only [List.foldl_cons]
      apply ihL _ (fun q hq => hmem q (List.mem_cons_of_mem _ hq))
      obtain ⟨pi, pj⟩ := p
      obtain ⟨ai, aj, ak⟩ := acc
      have hp := mem_pairsL.mp (hmem (pi, pj) (List.mem_cons_self _ _))
      simp only at hp
      have h1 := runFrom_le (x.drop pi) (y.drop pj)
      rw [List.length_drop, List.length_drop] at h1
      unfold lcsStep
      dsimp only
      split
      · rename_i hgt
        right
        dsimp only
        refine ⟨by omega, by omega, by omega⟩
      · rcases hacc with hacc | hacc
        · left; exact hacc
        · right; exact hacc
  apply h
  · intro p hp; exact hp
  · left; rfl

theorem lcsStep_eq (x y : List α) (acc : ℕ × ℕ × ℕ) (p : ℕ × ℕ) :
    lcsStep x y acc p =
      if runFrom (x.drop p.1) (y.drop p.2) > acc.2.2 then
        (p.1, p.2, runFrom (x.drop p.1) (y.drop p.2))
      else acc := rfl

/-- First-max characterization of the spec-side search. -/
theorem lcsAt_char (x y : List α) :
    (lcsAt x y = (0, 0, 0) ∧
      ∀ p ∈ pairsL 0 x.length 0 y.length,
        runFrom (x.drop p.1) (y.drop p.2) = 0) ∨
    (∃ pre p post, pairsL 0 x.length 0 y.length = pre ++ p :: post ∧
      lcsAt x y = (p.1, p.2, runFrom (x.drop p.1) (y.drop p.2)) ∧
      0 < runFrom (x.drop p.1) (y.drop p.2) ∧
      (∀ q ∈ pre, runFrom (x.drop q.1) (y.drop q.2) <
        runFrom (x.drop p.1) (y.drop p.2)) ∧
      (∀ q ∈ pairsL 0 x.length 0 y.length,
        runFrom (x.drop q.1) (y.drop q.2) ≤
          runFrom (x.drop p.1) (y.drop p.2))) := by
  have h := foldl_firstmax
    (fun p : ℕ × ℕ => runFrom (x.drop p.1) (y.drop p.2))
    (fun p : ℕ × ℕ => (p.1, p.2, runFrom (x.drop p.1) (y.drop p.2)))
    (fun t : ℕ × ℕ × ℕ => t.2.2)
    (lcsStep x y)
    (fun acc p => lcsStep_eq x y acc p)
    (fun p => rfl)
    (pairsL 0 x.length 0 y.length) (0, 0, 0)
  rcases h with ⟨heq, hall⟩ | ⟨pre, p, post, hsplit, heq, hlt, hpre, hall⟩
  · left
    exact ⟨heq, fun p hp => by have := hall p hp; simp only at this; omega⟩
  · right
    exact ⟨pre, p, post, hsplit, heq, by simpa using hlt, hpre, hall⟩

/-- Computation rule for the spec-side search given an explicit first
maximum. -/
theorem lcsAt_eq_of {x y : List α} {pi pj K : ℕ}
    (hmem : (pi, pj) ∈ pairsL 0 x.length 0 y.length)
    (hK : runFrom (x.drop pi) (y.drop pj) = K) (hKpos : 0 < K)
    (hall : ∀ p ∈ pairsL 0 x.length 0 y.length,
      runFrom (x.drop p.1) (y.drop p.2) ≤ K)
    (hbef : ∀ p ∈ pairsL 0 x.length 0 y.length, lexLt p (pi, pj) →
      runFrom (x.drop p.1) (y.drop p.2) < K) :
    lcsAt x y = (pi, pj, K) := by
  rcases lcsAt_char x y with ⟨_, hzero⟩ |
    ⟨pre, p, post, hsplit, heq, hpos, hpre, hmax⟩
  · have hz := hzero (pi, pj) hmem
    simp only at hz
    omega
  · have hsort := pairsL_pairwise 0 x.length 0 y.length
    have hpmem : p ∈ pairsL 0 x.length 0 y.length := by
      rw [hsplit]
      exact List.mem_append_right _ (List.mem_cons_self _ _)
    have h1 := hall p hpmem
    have h2 := hmax (pi, pj) hmem
    simp only at h2
    have hpK : runFrom (x.drop p.1) (y.drop p.2) = K := by omega
    have hpeq : p = (pi, pj) := by
      by_contra hne
      have htri : lexLt p (pi, pj) ∨ lexLt (pi, pj) p := by
        unfold lexLt
        rcases p with ⟨p1, p2⟩
        simp only [Prod.mk.injEq] at hne
        simp only
        omega
      rcases htri with hlx | hlx
      · have hb2 := hbef p hpmem hlx
        omega
      · have hqpre : (pi, pj) ∈ pre :=
          pre_of_sorted_split hsort hsplit hmem hlx
        have hp2 := hpre (pi, pj) hqpre
        simp only at hp2
        omega
    subst hpeq
    simp only at hpK
    rw [heq, hpK]

/-- Computation rule for the spec-side search when nothing matches. -/
theorem lcsAt_eq_zero {x y : List α}
    (hzero : ∀ p ∈ pairsL 0 x.length 0 y.length,
      runFrom (x.drop p.1) (y.drop p.2) = 0) :
    lcsAt x y = (0, 0, 0) := by
  rcases lcsAt_char x y with ⟨heq, _⟩ |
    ⟨pre, p, post, hsplit, _, hpos, _, _⟩
  · exact heq
  · exfalso
    have hpmem : p ∈ pairsL 0 x.length 0 y.length := by
      rw [hsplit]
      exact List.mem_append_right _ (List.mem_cons_self _ _)
    have hz := hzero p hpmem
    omega

/-- The longest-common-substring search over an empty left side finds
nothing. -/
theorem lcsAt_nil_left (y : List α) (x : List α) (hx : x.length = 0) :
    lcsAt x y = (0, 0, 0) := by
  unfold lcsAt pairsL
  rw [hx]
  rfl

/-- Fuel-indexed body of the Ratcliff/Obershelp recursion; the fuel
bounds the left length and is always sufficient at the call site. -/
def roMatchedAux : ℕ → List α → List α → ℕ
  | 0, _, _ => 0
  | fuel + 1, x, y =>
    match lcsAt x y with
    | (i, j, k) =>
      if 0 < k then
        roMatchedAux fuel (x.take i) (y.take j) + k +
          roMatchedAux fuel (x.drop (i + k)) (y.drop (j + k))
      else 0

/-- The Ratcliff/Obershelp total matched length, following the words of
the spec: recursively find the longest common contiguous substring,
recurse on the unmatched left and right remainders, and sum the matched
lengths. -/
def roMatched (x y : List α) : ℕ := roMatchedAux x.length x y

theorem roMatchedAux_congr (fuel : ℕ) :
    ∀ (fuel' : ℕ) (x y : List α), x.length ≤ fuel → x.length ≤ fuel' →
      roMatchedAux fuel x y = roMatchedAux (α := α) fuel' x y := by
  induction fuel with
  | zero =>
    intro fuel' x y h h'
    match fuel' with
    | 0 => rfl
    | fuel'' + 1 =>
      rw [roMatchedAux, roMatchedAux, lcsAt_nil_left y x (by omega)]
      simp
  | succ fuel ih =>
    intro fuel' x y h h'
    match fuel' with
    | 0 =>
      rw [roMatchedAux, roMatchedAux, lcsAt_nil_left y x (by omega)]
      simp
    | fuel'' + 1 =>
      rw [roMatchedAux, roMatchedAux]
      match hm : lcsAt x y with
      | (i, j, k) =>
        dsimp only
        by_cases hk : 0 < k
        · have hb := lcsAt_bounds x y
          rw [hm] at hb
          rcases hb with hb | hb
          · simp only [Prod.mk.injEq] at hb; omega
          · simp only at hb
            have hti : (x.take i).length ≤ fuel := by
              simp only [List.length_take]; omega
            have htj : (x.drop (i + k)).length ≤ fuel := by
              simp only [List.length_drop]; omega
            rw [if_pos hk, if_pos hk,
              ih fuel'' (x.take i) (y.take j) hti (by simp only [List.length_take]; omega),
              ih fuel'' (x.drop (i + k)) (y.drop (j + k)) htj
                (by simp only [List.length_drop]; omega)]
        · rw [if_neg hk, if_neg hk]

/-- The defining equation of the Ratcliff/Obershelp recursion. -/
theorem roMatched_eq (x y : List α) :
    roMatched x y =
      match lcsAt x y with
      | (i, j, k) =>
        if 0 < k then
          roMatched (x.take i) (y.take j) + k +
            roMatched (x.drop (i + k)) (y.drop (j + k))
        else 0 := by
  unfold roMatched
  match hf : x.length with
  | 0 =>
    rw [roMatchedAux, lcsAt_nil_left y x hf]
    simp
  | fuel + 1 =>
    rw [roMatchedAux]
    match hm : lcsAt x y with
    | (i, j, k) =>
      dsimp only
      by_cases hk : 0 < k
      · have hb := lcsAt_bounds x y
        rw [hm] at hb
        rcases hb with hb | hb
        · simp only [Prod.mk.injEq] at hb; omega
        · simp only at hb
          rw [if_pos hk, if_pos hk,
            roMatchedAux_congr fuel (x.take i).length (x.take i) (y.take j)
              (by simp only [List.length_take]; omega) (le_refl _),
            roMatchedAux_congr fuel (x.drop (i + k)).length (x.drop (i + k))
              (y.drop (j + k)) (by simp only [List.length_drop]; omega) (le_refl _)]
      · rw [if_neg hk, if_neg hk]

/-- The Ratcliff/Obershelp matching ratio of the spec: twice the total
matched length over the sum of the lengths. -/
def roRatioQ (x y : List α) : ℚ :=
  2 * (roMatched x y : ℚ) / (x.length + y.length)

end RatcliffSpec

section Bridge

variable {α : Type} [DecidableEq α]

theorem sliceL_length (l : List α) (lo hi : ℕ) (h : hi ≤ l.length) :
    (sliceL l lo hi).length = hi - lo := by
  unfold sliceL
  rw [List.length_take, List.length_drop]
  omega

theorem sliceL_get? (l : List α) (lo hi r : ℕ) (hr : r < hi - lo) :
    (sliceL l lo hi).get? r = l.get? (lo + r) := by
  unfold sliceL
  rw [List.get?_take hr, List.get?_drop]

theorem sliceL_full (l : List α) : sliceL l 0 l.length = l := by
  unfold sliceL
  simp

theorem sliceL_take (l : List α) (lo hi m : ℕ) (h : lo + m ≤ hi) :
    (sliceL l lo hi).take m = sliceL l lo (lo + m) := by
  unfold sliceL
  rw [List.take_take]
  congr 1
  omega

theorem sliceL_drop (l : List α) (lo hi m : ℕ) :
    (sliceL l lo hi).drop m = sliceL l (lo + m) hi := by
  unfold sliceL
  rw [List.drop_take, List.drop_drop]
  congr 1
  omega

theorem runFrom_matches (x : List α) :
    ∀ (y : List α), ∀ r < runFrom x y,
      ∃ c, x.get? r = some c ∧ y.get? r = some c := by
  induction x with
  | nil => intro y r hr; rw [runFrom.eq_def] at hr; simp at hr
  | cons c xs ih =>
    intro y r hr
    cases y with
    | nil => rw [runFrom.eq_def] at hr; simp at hr
    | cons d ys =>
      rw [runFrom] at hr
      by_cases hcd : c = d
      · rw [if_pos hcd] at hr
        match r with
        | 0 => exact ⟨c, rfl, by rw [hcd]; rfl⟩
        | r + 1 =>
          have := ih ys r (by omega)
          simpa using this
      · rw [if_neg hcd] at hr
        omega

theorem runFrom_ge (x : List α) :
    ∀ (y : List α) (m : ℕ),
      (∀ r < m, ∃ c, x.get? r = some c ∧ y.get? r = some c) →
      m ≤ runFrom x y := by
  induction x with
  | nil =>
    intro y m h
    match m with
    | 0 => omega
    | m + 1 =>
      obtain ⟨c, hc, _⟩ := h 0 (by omega)
      simp at hc
  | cons c xs ih =>
    intro y m h
    match m with
    | 0 => omega
    | m + 1 =>
      obtain ⟨e, he, he'⟩ := h 0 (by omega)
      cases y with
      | nil => simp at he'
      | cons d ys =>
        simp only [List.get?] at he he'
        have hce : c = e := by injection he
        have hde : d = e := by injection he'
        rw [runFrom, if_pos (by rw [hce, hde])]
        have hrec : m ≤ runFrom xs ys := by
          apply ih ys m
          intro r hr
          have := h (r + 1) (by omega)
          simpa using this
        omega

/-- A positive code-side run ending inside the window yields a
spec-side run of the same length on the slices, starting at the
translated start position. -/
theorem conv_run_to_slice {a b : List α} {junk : α → Bool}
    (hj : ∀ v, junk v = false) {alo ahi blo bhi : ℕ}
    (ha : ahi ≤ a.length) (hb : bhi ≤ b.length)
    {i j K : ℕ} (hij : (i, j) ∈ pairsL alo ahi blo bhi)
    (hK : runlen a b junk alo blo i j = K) (hKpos : 0 < K) :
    K ≤ runFrom ((sliceL a alo ahi).drop (i + 1 - K - alo))
      ((sliceL b blo bhi).drop (j + 1 - K - blo)) := by
  have hm := mem_pairsL.mp hij
  simp only at hm
  have hle := runlen_le a b junk alo blo i j hm.1 hm.2.2.1
  rw [hK] at hle
  apply runFrom_ge
  intro r hr
  have hs := runlen_sound a b junk alo blo i j (K - 1 - r) (by omega)
  have hmt : entryMatch a b junk (i - (K - 1 - r)) (j - (K - 1 - r)) = true := hs.1
  unfold entryMatch at hmt
  match hga : a.get? (i - (K - 1 - r)), hgb : b.get? (j - (K - 1 - r)) with
  | some u, some v =>
    rw [hga, hgb] at hmt
    simp only [Bool.and_eq_true, decide_eq_true_eq] at hmt
    refine ⟨u, ?_, ?_⟩
    · rw [List.get?_drop, sliceL_get? a alo ahi _ (by omega)]
      have he : alo + (i + 1 - K - alo + r) = i - (K - 1 - r) := by omega
      rw [he, hga]
    · rw [List.get?_drop, sliceL_get? b blo bhi _ (by omega)]
      have he : blo + (j + 1 - K - blo + r) = j - (K - 1 - r) := by omega
      rw [he, hgb, hmt.1]
  | some u, none => rw [hga, hgb] at hmt; simp at hmt
  | none, some v => rw [hga, hgb] at hmt; simp at hmt
  | none, none => rw [hga, hgb] at hmt; simp at hmt

/-- A positive spec-side run on the slices yields a code-side run of at
least the same length ending at the translated end position. -/
theorem conv_run_to_window {a b : List α} {junk : α → Bool}
    (hj : ∀ v, junk v = false) {alo ahi blo bhi : ℕ}
    (ha : ahi ≤ a.length) (hb : bhi ≤ b.length)
    {ps qs M : ℕ}
    (hM : runFrom ((sliceL a alo ahi).drop ps) ((sliceL b blo bhi).drop qs) = M)
    (hMpos : 0 < M) :
    (alo + ps + M - 1, blo + qs + M - 1) ∈ pairsL alo ahi blo bhi ∧
      M ≤ runlen a b junk alo blo (alo + ps + M - 1) (blo + qs + M - 1) := by
  have hrle := runFrom_le ((sliceL a alo ahi).drop ps) ((sliceL b blo bhi).drop qs)
  rw [hM, List.length_drop, List.length_drop,
    sliceL_length a alo ahi ha, sliceL_length b blo bhi hb] at hrle
  have hmatch : ∀ t < M, ∃ c, a.get? (alo + ps + t) = some c ∧
      b.get? (blo + qs + t) = some c := by
    intro t ht
    obtain ⟨c, hc1, hc2⟩ := runFrom_matches _ _ t (by omega : t < runFrom
      ((sliceL a alo ahi).drop ps) ((sliceL b blo bhi).drop qs))
    rw [List.get?_drop, sliceL_get? a alo ahi _ (by omega)] at hc1
    rw [List.get?_drop, sliceL_get? b blo bhi _ (by omega)] at hc2
    have he1 : alo + (ps + t) = alo + ps + t := by omega
    have he2 : blo + (qs + t) = blo + qs + t := by omega
    rw [he1] at hc1
    rw [he2] at hc2
    exact ⟨c, hc1, hc2⟩
  constructor
  · apply mem_pairsL.mpr
    refine ⟨by omega, by omega, by omega, by omega⟩
  · apply runlen_complete a b junk alo blo _ _ M ?_ (by omega) (by omega)
      (by omega) (by omega)
    intro r hr
    obtain ⟨c, hc1, hc2⟩ := hmatch (M - 1 - r) (by omega)
    have he1 : alo + ps + M - 1 - r = alo + ps + (M - 1 - r) := by omega
    have he2 : blo + qs + M - 1 - r = blo + qs + (M - 1 - r) := by omega
    unfold entryMatch
    rw [he1, he2, hc1, hc2]
    simp [hj]

/-- Without junk, find_longest_match finds exactly the spec-side
longest common contiguous substring of the window slices, translated
back to absolute positions. -/
theorem findLongestMatch_eq_lcsAt (a b : List α) (junk : α → Bool)
    (hj : ∀ v, junk v = false) {alo ahi blo bhi : ℕ}
    (ha : ahi ≤ a.length) (hb : bhi ≤ b.length) :
    findLongestMatch a b junk alo ahi blo bhi =
      (alo + (lcsAt (sliceL a alo ahi) (sliceL b blo bhi)).1,
       blo + (lcsAt (sliceL a alo ahi) (sliceL b blo bhi)).2.1,
       (lcsAt (sliceL a alo ahi) (sliceL b blo bhi)).2.2) := by
  rw [findLongestMatch_nojunk a b junk hj]
  have hxlen : (sliceL a alo ahi).length = ahi - alo := sliceL_length a alo ahi ha
  have hylen : (sliceL b blo bhi).length = bhi - blo := sliceL_length b blo bhi hb
  rcases scanBest_char a b junk alo ahi blo bhi with ⟨heq, hzero⟩ |
    ⟨pre, p, post, hsplit, heq, hpos, hpreb, hmaxb⟩
  · have hlz : lcsAt (sliceL a alo ahi) (sliceL b blo bhi) = (0, 0, 0) := by
      apply lcsAt_eq_zero
      intro q hq
      by_contra hne
      have hqpos : 0 < runFrom ((sliceL a alo ahi).drop q.1)
          ((sliceL b blo bhi).drop q.2) := Nat.pos_of_ne_zero hne
      have hcb := conv_run_to_window hj ha hb
        (show runFrom ((sliceL a alo ahi).drop q.1)
            ((sliceL b blo bhi).drop q.2) =
          runFrom ((sliceL a alo ahi).drop q.1)
            ((sliceL b blo bhi).drop q.2) from rfl) hqpos
      have hz := hzero _ hcb.1
      simp only at hz
      omega
    rw [heq, hlz]
    simp
  · obtain ⟨p1, p2⟩ := p
    have hpmem : (p1, p2) ∈ pairsL alo ahi blo bhi := by
      rw [hsplit]
      exact List.mem_append_right _ (List.mem_cons_self _ _)
    have hpm := mem_pairsL.mp hpmem
    simp only at hpm heq hpos hpreb hmaxb
    have hrle := runlen_le a b junk alo blo p1 p2 hpm.1 hpm.2.2.1
    set K := runlen a b junk alo blo p1 p2 with hKdef
    have hconvA := conv_run_to_slice hj ha hb hpmem hKdef.symm hpos
    have hspmem : (p1 + 1 - K - alo, p2 + 1 - K - blo) ∈
        pairsL 0 (sliceL a alo ahi).length 0 (sliceL b blo bhi).length := by
      apply mem_pairsL.mpr
      rw [hxlen, hylen]
      refine ⟨by omega, by omega, by omega, by omega⟩
    rcases lcsAt_char (sliceL a alo ahi) (sliceL b blo bhi) with ⟨heq2, hzero2⟩ |
      ⟨pre2, s, post2, hsplit2, heq2, hpos2, hpre2, hmax2⟩
    · exfalso
      have hz := hzero2 _ hspmem
      simp only at hz
      omega
    · obtain ⟨s1, s2⟩ := s
      have hsmem : (s1, s2) ∈
          pairsL 0 (sliceL a alo ahi).length 0 (sliceL b blo bhi).length := by
        rw [hsplit2]
        exact List.mem_append_right _ (List.mem_cons_self _ _)
      have hsm := mem_pairsL.mp hsmem
      rw [hxlen, hylen] at hsm
      simp only at hsm heq2 hpos2 hpre2 hmax2
      set M := runFrom ((sliceL a alo ahi).drop s1) ((sliceL b blo bhi).drop s2)
        with hMdef
      have hKleM : K ≤ M := by
        have h1 := hmax2 _ hspmem
        simp only at h1
        omega
      have hconvB := conv_run_to_window hj ha hb hMdef.symm hpos2
      have hMleK : M ≤ K := by
        have h1 := hmaxb _ hconvB.1
        simp only at h1
        omega
      have hnl1 : ¬ lexLt (p1 + 1 - K - alo, p2 + 1 - K - blo) (s1, s2) := by
        intro hlx
        have hq := hpre2 _ (pre_of_sorted_split
          (pairsL_pairwise 0 (sliceL a alo ahi).length 0 (sliceL b blo bhi).length)
          hsplit2 hspmem hlx)
        simp only at hq
        omega
      have hnl2 : ¬ lexLt (alo + s1 + M - 1, blo + s2 + M - 1) (p1, p2) := by
        intro hlx
        have hq := hpreb _ (pre_of_sorted_split
          (pairsL_pairwise alo ahi blo bhi) hsplit hconvB.1 hlx)
        simp only at hq
        omega
      unfold lexLt at hnl1 hnl2
      simp only at hnl1 hnl2
      rw [heq, heq2]
      simp only [Prod.mk.injEq]
      refine ⟨by omega, by omega, by omega⟩

theorem sumKs_nil : sumKs ([] : List (ℕ × ℕ × ℕ)) = 0 := rfl

theorem sumKs_cons (t : ℕ × ℕ × ℕ) (L : List (ℕ × ℕ × ℕ)) :
    sumKs (t :: L) = t.2.2 + sumKs L := by
  unfold sumKs
  simp

theorem sumKs_append (L1 L2 : List (ℕ × ℕ × ℕ)) :
    sumKs (L1 ++ L2) = sumKs L1 + sumKs L2 := by
  unfold sumKs
  simp

/-- Adjacent merging preserves the total matched length. -/
theorem mergeLoop_sum (L : List (ℕ × ℕ × ℕ)) :
    ∀ carried : ℕ × ℕ × ℕ,
      sumKs (mergeLoop carried L) = carried.2.2 + sumKs L := by
  induction L with
  | nil =>
    intro carried
    obtain ⟨i1, j1, k1⟩ := carried
    rw [mergeLoop]
    by_cases hk : k1 ≠ 0
    · rw [if_pos hk, sumKs_cons]
    · rw [if_neg hk]
      simp only [ne_eq, not_not] at hk
      simp [hk, sumKs]
  | cons t L ih =>
    intro carried
    obtain ⟨i1, j1, k1⟩ := carried
    obtain ⟨i2, j2, k2⟩ := t
    rw [mergeLoop]
    by_cases hadj : i1 + k1 = i2 ∧ j1 + k1 = j2
    · rw [if_pos hadj, ih]
      rw [sumKs_cons]
      simp only
      omega
    · rw [if_neg hadj, sumKs_append, ih, sumKs_cons]
      by_cases hk : k1 ≠ 0
      · rw [if_pos hk, sumKs_cons, sumKs_nil]
        simp only
        omega
      · rw [if_neg hk, sumKs_nil]
        simp only [ne_eq, not_not] at hk
        simp only
        omega

/-- Without junk, the total matched length of the recursive subdivision
on a window equals the Ratcliff/Obershelp matched total of its slices. -/
theorem blocksRec_sum_eq (a b : List α) (junk : α → Bool)
    (hj : ∀ v, junk v = false) :
    ∀ (n alo ahi blo bhi : ℕ), ahi - alo ≤ n → ahi ≤ a.length →
      bhi ≤ b.length →
      sumKs (matchingBlocksRec a b junk alo ahi blo bhi) =
        roMatched (sliceL a alo ahi) (sliceL b blo bhi) := by
  intro n
  induction n with
  | zero =>
    intro alo ahi blo bhi hn ha hb
    rw [matchingBlocksRec_eq, findLongestMatch_eq_lcsAt a b junk hj ha hb,
      roMatched_eq]
    have hxe : sliceL a alo ahi = [] := by
      have := sliceL_length a alo ahi ha
      match hx : sliceL a alo ahi with
      | [] => rfl
      | c :: rest => rw [hx] at this; simp at this; omega
    rw [hxe, lcsAt_nil_left _ _ (by simp)]
    simp [sumKs]
  | succ n ih =>
    intro alo ahi blo bhi hn ha hb
    rw [matchingBlocksRec_eq, findLongestMatch_eq_lcsAt a b junk hj ha hb,
      roMatched_eq]
    match hm : lcsAt (sliceL a alo ahi) (sliceL b blo bhi) with
    | (i', j', k) =>
      dsimp only
      by_cases hk : 0 < k
      · rw [if_pos hk, if_pos hk]
        have hbnd := lcsAt_bounds (sliceL a alo ahi) (sliceL b blo bhi)
        rw [hm] at hbnd
        rcases hbnd with hbnd | hbnd
        · simp only [Prod.mk.injEq] at hbnd; omega
        · simp only at hbnd
          rw [sliceL_length a alo ahi ha, sliceL_length b blo bhi hb] at hbnd
          rw [sumKs_append, sumKs_cons]
          simp only
          have hleft := ih alo (alo + i') blo (blo + j') (by omega) (by omega)
            (by omega)
          have hright := ih (alo + i' + k) ahi (blo + j' + k) bhi (by omega)
            ha hb
          rw [hleft, hright,
            sliceL_take a alo ahi i' (by omega),
            sliceL_take b blo bhi j' (by omega),
            sliceL_drop a alo ahi (i' + k),
            sliceL_drop b blo bhi (j' + k)]
          have he1 : alo + (i' + k) = alo + i' + k := by omega
          have he2 : blo + (j' + k) = blo + j' + k := by omega
          rw [he1, he2]
          omega
      · rw [if_neg hk, if_neg hk, sumKs_nil]

/-- Without junk, ratio() computes exactly the Ratcliff/Obershelp
matched total. -/
theorem sumKs_getMatchingBlocks_eq (a b : List α) (junk : α → Bool)
    (hj : ∀ v, junk v = false) :
    sumKs (getMatchingBlocks a b junk) = roMatched a b := by
  unfold getMatchingBlocks
  rw [sumKs_append, mergeLoop_sum, sumKs_cons, sumKs_nil,
    blocksRec_sum_eq a b junk hj (a.length - 0) 0 a.length 0 b.length
      (le_refl _) (le_refl _) (le_refl _),
    sliceL_full, sliceL_full]
  simp

end Bridge

section Diagonal

variable {α : Type} [DecidableEq α]

/-- A match between two positions of the same list transfers to each
diagonal position. -/
theorem entryMatch_diag {c : List α} {junk : α → Bool} {i j : ℕ}
    (h : entryMatch c c junk i j = true) :
    entryMatch c c junk i i = true ∧ entryMatch c c junk j j = true := by
  unfold entryMatch at *
  match hgi : c.get? i, hgj : c.get? j with
  | some x, some y =>
    rw [hgi, hgj] at h
    simp only [Bool.and_eq_true, decide_eq_true_eq] at h
    obtain ⟨hxy, hjy⟩ := h
    subst hxy
    simp [hjy]
  | some x, none => rw [hgi, hgj] at h; simp at h
  | none, some y => rw [hgi, hgj] at h; simp at h
  | none, none => rw [hgi, hgj] at h; simp at h

/-- On equal lists, the run ending at (i, j) is no longer than the runs
ending at the diagonal points (j, j) and (i, i). -/
theorem runlen_le_diag (c : List α) (junk : α → Bool) (lo : ℕ) :
    ∀ i j, runlen c c junk lo lo i j ≤ runlen c c junk lo lo j j ∧
      runlen c c junk lo lo i j ≤ runlen c c junk lo lo i i := by
  intro i
  induction i using Nat.strong_induction_on with
  | _ i ih =>
    intro j
    rw [runlen_eq c c junk lo lo i j]
    by_cases hm : entryMatch c c junk i j = true
    · have hd := entryMatch_diag hm
      rw [if_pos hm]
      constructor
      · rw [runlen_eq c c junk lo lo j j, if_pos hd.2]
        by_cases hw : lo < i ∧ lo < j
        · rw [if_pos hw, if_pos (⟨hw.2, hw.2⟩ : lo < j ∧ lo < j)]
          have hrec := (ih (i - 1) (by omega) (j - 1)).1
          omega
        · rw [if_neg hw]
          by_cases hww : lo < j ∧ lo < j
          · rw [if_pos hww]; omega
          · rw [if_neg hww]
      · rw [runlen_eq c c junk lo lo i i, if_pos hd.1]
        by_cases hw : lo < i ∧ lo < j
        · rw [if_pos hw, if_pos (⟨hw.1, hw.1⟩ : lo < i ∧ lo < i)]
          have hrec := (ih (i - 1) (by omega) (j - 1)).2
          omega
        · rw [if_neg hw]
          by_cases hww : lo < i ∧ lo < i
          · rw [if_pos hww]; omega
          · rw [if_neg hww]
    · rw [if_neg hm]
      omega

/-- On equal lists the scan result is a diagonal block. -/
theorem scanBest_diag (c : List α) (junk : α → Bool) (lo hi : ℕ) :
    ∃ s k, scanBest c c junk lo hi lo hi = (s, s, k) := by
  rcases scanBest_char c c junk lo hi lo hi with ⟨heq, _⟩ |
    ⟨pre, p, post, hsplit, heq, hpos, hpre, hmax⟩
  · exact ⟨lo, 0, heq⟩
  · obtain ⟨p1, p2⟩ := p
    simp only at heq hpos hpre hmax
    have hpmem : (p1, p2) ∈ pairsL lo hi lo hi := by
      rw [hsplit]
      exact List.mem_append_right _ (List.mem_cons_self _ _)
    have hpm := mem_pairsL.mp hpmem
    simp only at hpm
    have hd := runlen_le_diag c junk lo p1 p2
    have h11mem : (p1, p1) ∈ pairsL lo hi lo hi :=
      mem_pairsL.mpr ⟨by omega, by omega, by omega, by omega⟩
    have h22mem : (p2, p2) ∈ pairsL lo hi lo hi :=
      mem_pairsL.mpr ⟨by omega, by omega, by omega, by omega⟩
    have hmax1 := hmax (p1, p1) h11mem
    have hmax2 := hmax (p2, p2) h22mem
    simp only at hmax1 hmax2
    have heqq : p1 = p2 := by
      by_contra hne
      rcases Nat.lt_or_ge p1 p2 with hlt | hge
      · have hlx : lexLt (p1, p1) (p1, p2) := Or.inr ⟨rfl, hlt⟩
        have hp2 := hpre _ (pre_of_sorted_split (pairsL_pairwise lo hi lo hi)
          hsplit h11mem hlx)
        simp only at hp2
        omega
      · have hlt2 : p2 < p1 := by omega
        have hlx : lexLt (p2, p2) (p1, p2) := Or.inl hlt2
        have hp2 := hpre _ (pre_of_sorted_split (pairsL_pairwise lo hi lo hi)
          hsplit h22mem hlx)
        simp only at hp2
        omega
    subst heqq
    exact ⟨p1 + 1 - runlen c c junk lo lo p1 p1, _, heq⟩

/-- The leftward extension preserves sums, only moves the start left,
and never shrinks the size. -/
theorem extLeft_sums (cond : ℕ → ℕ → Bool) (alo blo : ℕ) :
    ∀ i j k,
      (extLeft cond alo blo i j k).1 + (extLeft cond alo blo i j k).2.2 = i + k ∧
      (extLeft cond alo blo i j k).2.1 + (extLeft cond alo blo i j k).2.2 = j + k ∧
      (extLeft cond alo blo i j k).1 ≤ i ∧
      (extLeft cond alo blo i j k).2.1 ≤ j ∧
      k ≤ (extLeft cond alo blo i j k).2.2 := by
  intro i
  induction i using Nat.strong_induction_on with
  | _ i ih =>
    intro j k
    rw [extLeft_eq]
    by_cases hc : alo < i ∧ blo < j ∧ cond (i - 1) (j - 1) = true
    · rw [if_pos hc]
      have hrec := ih (i - 1) (by omega) (j - 1) (k + 1)
      refine ⟨by omega, by omega, by omega, by omega, by omega⟩
    · rw [if_neg hc]
      exact ⟨rfl, rfl, le_refl _, le_refl _, le_refl _⟩

/-- The leftward extension on a diagonal block stays diagonal. -/
theorem extLeft_diag (cond : ℕ → ℕ → Bool) (lo : ℕ) :
    ∀ i k, ∃ i' k', extLeft cond lo lo i i k = (i', i', k') := by
  intro i
  induction i using Nat.strong_induction_on with
  | _ i ih =>
    intro k
    rw [extLeft_eq]
    by_cases hc : lo < i ∧ lo < i ∧ cond (i - 1) (i - 1) = true
    · rw [if_pos hc]
      exact ih (i - 1) (by omega) (k + 1)
    · rw [if_neg hc]
      exact ⟨i, k, rfl⟩

theorem extRightAux_ge (cond : ℕ → ℕ → Bool) (ahi bhi i j : ℕ) :
    ∀ fuel k, k ≤ extRightAux cond ahi bhi i j fuel k := by
  intro fuel
  induction fuel with
  | zero => intro k; rw [extRightAux]
  | succ fuel ih =>
    intro k
    rw [extRightAux]
    split
    · have := ih (k + 1)
      omega
    · exact le_refl _

theorem extRight_ge (cond : ℕ → ℕ → Bool) (ahi bhi i j k : ℕ) :
    k ≤ extRight cond ahi bhi i j k := by
  unfold extRight
  exact extRightAux_ge cond ahi bhi i j _ k

/-- On equal lists find_longest_match returns a diagonal block. -/
theorem findLongestMatch_diag (c : List α) (junk : α → Bool) (lo hi : ℕ) :
    ∃ s k, findLongestMatch c c junk lo hi lo hi = (s, s, k) := by
  unfold findLongestMatch
  obtain ⟨s0, k0, hs0⟩ := scanBest_diag c junk lo hi
  rw [hs0]
  dsimp only
  obtain ⟨s1, k1, hs1⟩ := extLeft_diag (entryMatch c c junk) lo s0 k0
  rw [hs1]
  dsimp only
  obtain ⟨s3, k3, hs3⟩ := extLeft_diag (entryJunkMatch c c junk) lo s1
    (extRight (entryMatch c c junk) hi hi s1 s1 k1)
  rw [hs3]
  exact ⟨s3, _, rfl⟩

/-- On a non-empty window over equal lists, find_longest_match returns
a non-empty block: either the scan finds a match, or the junk
right-extension absorbs the junk character at the window start. -/
theorem findLongestMatch_diag_pos (c : List α) (junk : α → Bool)
    (lo hi : ℕ) (hlo : lo < hi) (hhi : hi ≤ c.length) :
    0 < (findLongestMatch c c junk lo hi lo hi).2.2 := by
  unfold findLongestMatch
  rcases scanBest_char c c junk lo hi lo hi with ⟨heq, hzero⟩ |
    ⟨pre, p, post, hsplit, heq, hpos, hpre, hmax⟩
  · rw [heq]
    dsimp only
    have hvlt : lo < c.length := by omega
    have hv : c.get? lo = some (c.get ⟨lo, hvlt⟩) := List.get?_eq_get hvlt
    set v := c.get ⟨lo, hvlt⟩ with hvdef
    by_cases hjv : junk v = true
    · have hl1 : extLeft (entryMatch c c junk) lo lo lo lo 0 = (lo, lo, 0) := by
        apply extLeft_noop
        intro hc
        omega
      rw [hl1]
      dsimp only
      have hem : entryMatch c c junk lo lo = false := by
        unfold entryMatch
        rw [hv]
        simp [hjv]
      have hr1 : extRight (entryMatch c c junk) hi hi lo lo 0 = 0 := by
        apply extRight_noop
        intro hc
        rw [Nat.add_zero] at hc
        rw [hem] at hc
        simp at hc
      rw [hr1]
      have hl2 : extLeft (entryJunkMatch c c junk) lo lo lo lo 0 = (lo, lo, 0) := by
        apply extLeft_noop
        intro hc
        omega
      rw [hl2]
      dsimp only
      have hjm : entryJunkMatch c c junk lo lo = true := by
        unfold entryJunkMatch
        rw [hv]
        simp [hjv]
      have hguard : lo + 0 < hi ∧ lo + 0 < hi ∧
          entryJunkMatch c c junk (lo + 0) (lo + 0) = true := by
        refine ⟨by omega, by omega, by simpa using hjm⟩
      rw [extRight_eq, if_pos hguard]
      have hge := extRight_ge (entryJunkMatch c c junk) hi hi lo lo (0 + 1)
      omega
    · exfalso
      have hem : entryMatch c c junk lo lo = true := by
        unfold entryMatch
        rw [hv]
        simp [hjv]
      have hrl : 0 < runlen c c junk lo lo lo lo :=
        (runlen_pos_iff c c junk lo lo lo lo).mpr hem
      have hz := hzero (lo, lo) (mem_pairsL.mpr ⟨le_refl _, hlo, le_refl _, hlo⟩)
      simp only at hz
      omega
  · rw [heq]
    dsimp only
    set K := runlen c c junk lo lo p.1 p.2 with hKdef
    set ia := p.1 + 1 - K with hia
    set ja := p.2 + 1 - K with hja
    set s1 := extLeft (entryMatch c c junk) lo lo ia ja K with hs1def
    have hs1 := extLeft_sums (entryMatch c c junk) lo lo ia ja K
    rw [← hs1def] at hs1
    set k2 := extRight (entryMatch c c junk) hi hi s1.1 s1.2.1 s1.2.2 with hk2def
    have hr1 := extRight_ge (entryMatch c c junk) hi hi s1.1 s1.2.1 s1.2.2
    rw [← hk2def] at hr1
    set s3 := extLeft (entryJunkMatch c c junk) lo lo s1.1 s1.2.1 k2 with hs3def
    have hs3 := extLeft_sums (entryJunkMatch c c junk) lo lo s1.1 s1.2.1 k2
    rw [← hs3def] at hs3
    have hr3 := extRight_ge (entryJunkMatch c c junk) hi hi s3.1 s3.2.1 s3.2.2
    omega

/-- Coverage: on equal lists every symmetric window is fully matched,
whatever the junk predicate. -/
theorem diag_cover (c : List α) (junk : α → Bool) :
    ∀ (n lo hi : ℕ), hi - lo ≤ n → hi ≤ c.length →
      sumKs (matchingBlocksRec c c junk lo hi lo hi) = hi - lo := by
  intro n
  induction n with
  | zero =>
    intro lo hi hn hhi
    rw [matchingBlocksRec_eq]
    match hm : findLongestMatch c c junk lo hi lo hi with
    | (i, j, k) =>
      dsimp only
      by_cases hk : 0 < k
      · exfalso
        have hb := findLongestMatch_bounds c c junk hm hk
        omega
      · rw [if_neg hk, sumKs_nil]
        omega
  | succ n ih =>
    intro lo hi hn hhi
    by_cases hlh : lo < hi
    · obtain ⟨s, k, hm⟩ := findLongestMatch_diag c junk lo hi
      have hkpos : 0 < k := by
        have hp := findLongestMatch_diag_pos c junk lo hi hlh hhi
        rw [hm] at hp
        simpa using hp
      have hb := findLongestMatch_bounds c c junk hm hkpos
      rw [matchingBlocksRec_eq, hm]
      dsimp only
      rw [if_pos hkpos, sumKs_append, sumKs_cons]
      have hleft := ih lo s (by omega) (by omega)
      have hright := ih (s + k) hi (by omega) hhi
      rw [hleft, hright]
      simp only
      omega
    · rw [matchingBlocksRec_eq]
      match hm : findLongestMatch c c junk lo hi lo hi with
      | (i, j, k) =>
        dsimp only
        by_cases hk : 0 < k
        · exfalso
          have hb := findLongestMatch_bounds c c junk hm hk
          omega
        · rw [if_neg hk, sumKs_nil]
          omega

/-- On equal lists the whole input is matched, whatever the junk. -/
theorem sumKs_getMatchingBlocks_diag (c : List α) (junk : α → Bool) :
    sumKs (getMatchingBlocks c c junk) = c.length := by
  unfold getMatchingBlocks
  rw [sumKs_append, mergeLoop_sum, sumKs_cons, sumKs_nil,
    diag_cover c junk (c.length - 0) 0 c.length (by omega) (le_refl _)]
  simp

/-- ratio() of a non-empty list against itself is exactly 1, junk or
not. -/
theorem smRatioQ_diag (c : List α) (junk : α → Bool) (hne : c ≠ []) :
    smRatioQ c c junk = 1 := by
  unfold smRatioQ
  have hlen : c.length ≠ 0 := by
    intro h
    exact hne (List.length_eq_zero.mp h)
  rw [if_neg (by omega), sumKs_getMatchingBlocks_diag]
  have hq : (c.length : ℚ) ≠ 0 := by exact_mod_cast hlen
  field_simp
  ring

end Diagonal

section Coverage

variable {α : Type} [DecidableEq α]

/-- The old-side token stream of an opcode list: the a-side spans of
all equal, delete and replace opcodes, in order. -/
def oldTokens (a : List α) (ops : List (DTag × ℕ × ℕ × ℕ × ℕ)) : List α :=
  ops.flatMap (fun op =>
    if op.1 = DTag.insert then [] else sliceL a op.2.1 op.2.2.1)

/-- The new-side token stream of an opcode list: the b-side spans of
all equal, insert and replace opcodes, in order. -/
def newTokens (b : List α) (ops : List (DTag × ℕ × ℕ × ℕ × ℕ)) : List α :=
  ops.flatMap (fun op =>
    if op.1 = DTag.delete then [] else sliceL b op.2.2.2.1 op.2.2.2.2)

/-- Monotone chain of blocks from a cursor, with cursors bounded by the
given ends. -/
def ChainLe : ℕ → ℕ → List (ℕ × ℕ × ℕ) → ℕ → ℕ → Prop
  | ca, cb, [], ea, eb => ca ≤ ea ∧ cb ≤ eb
  | ca, cb, (ai, bj, sz) :: rest, ea, eb =>
    ca ≤ ai ∧ cb ≤ bj ∧ ChainLe (ai + sz) (bj + sz) rest ea eb

/-- Monotone chain of blocks whose final cursor is exactly the end. -/
def ChainEnd (la lb : ℕ) : ℕ → ℕ → List (ℕ × ℕ × ℕ) → Prop
  | ca, cb, [] => ca = la ∧ cb = lb
  | ca, cb, (ai, bj, sz) :: rest =>
    ca ≤ ai ∧ cb ≤ bj ∧ ChainEnd la lb (ai + sz) (bj + sz) rest

theorem sliceL_append (l : List α) (u v w : ℕ) (huv : u ≤ v) (hvw : v ≤ w) :
    sliceL l u v ++ sliceL l v w = sliceL l u w := by
  unfold sliceL
  have hw : w - u = (v - u) + (w - v) := by omega
  rw [hw, List.take_add, List.drop_drop]
  have hv : u + (v - u) = v := by omega
  rw [hv]

theorem sliceL_empty (l : List α) (u : ℕ) : sliceL l u u = [] := by
  unfold sliceL
  simp

theorem ChainLe_append {ea eb : ℕ} :
    ∀ (L1 : List (ℕ × ℕ × ℕ)) (ca cb m1 m2 ai bj sz : ℕ)
      (L2 : List (ℕ × ℕ × ℕ)),
      ChainLe ca cb L1 m1 m2 → m1 ≤ ai → m2 ≤ bj →
      ChainLe (ai + sz) (bj + sz) L2 ea eb →
      ChainLe ca cb (L1 ++ (ai, bj, sz) :: L2) ea eb := by
  intro L1
  induction L1 with
  | nil =>
    intro ca cb m1 m2 ai bj sz L2 h1 hm1 hm2 h2
    unfold ChainLe at h1
    exact ⟨by omega, by omega, h2⟩
  | cons t L1 ih =>
    intro ca cb m1 m2 ai bj sz L2 h1 hm1 hm2 h2
    obtain ⟨ti, tj, tk⟩ := t
    unfold ChainLe at h1
    exact ⟨h1.1, h1.2.1, ih _ _ _ _ _ _ _ _ h1.2.2 hm1 hm2 h2⟩

/-- The blocks of the recursive subdivision form a monotone chain in
the queried window. -/
theorem blocksRec_chainLe (a b : List α) (junk : α → Bool) :
    ∀ (n alo ahi blo bhi : ℕ), ahi - alo ≤ n → alo ≤ ahi → blo ≤ bhi →
      ChainLe alo blo (matchingBlocksRec a b junk alo ahi blo bhi) ahi bhi := by
  intro n
  induction n with
  | zero =>
    intro alo ahi blo bhi hn h1 h2
    rw [matchingBlocksRec_eq]
    match hm : findLongestMatch a b junk alo ahi blo bhi with
    | (i, j, k) =>
      dsimp only
      by_cases hk : 0 < k
      · exfalso
        have hb := findLongestMatch_bounds a b junk hm hk
        omega
      · rw [if_neg hk]
        exact ⟨h1, h2⟩
  | succ n ih =>
    intro alo ahi blo bhi hn h1 h2
    rw [matchingBlocksRec_eq]
    match hm : findLongestMatch a b junk alo ahi blo bhi with
    | (i, j, k) =>
      dsimp only
      by_cases hk : 0 < k
      · rw [if_pos hk]
        have hb := findLongestMatch_bounds a b junk hm hk
        have hleft := ih alo i blo j (by omega) (by omega) (by omega)
        have hright := ih (i + k) ahi (j + k) bhi (by omega) (by omega) (by omega)
        exact ChainLe_append _ alo blo i j i j k _ hleft (le_refl _)
          (le_refl _) hright
      · rw [if_neg hk]
        exact ⟨h1, h2⟩

/-- Adjacent merging preserves the monotone chain. -/
theorem mergeLoop_chainLe {ea eb : ℕ} :
    ∀ (L : List (ℕ × ℕ × ℕ)) (i1 j1 k1 ca cb : ℕ),
      ca ≤ i1 → cb ≤ j1 → ChainLe (i1 + k1) (j1 + k1) L ea eb →
      ChainLe ca cb (mergeLoop (i1, j1, k1) L) ea eb := by
  intro L
  induction L with
  | nil =>
    intro i1 j1 k1 ca cb hca hcb hch
    unfold ChainLe at hch
    rw [mergeLoop]
    by_cases hk : k1 ≠ 0
    · rw [if_pos hk]
      exact ⟨hca, hcb, by omega, by omega⟩
    · rw [if_neg hk]
      simp only [ne_eq, not_not] at hk
      exact ⟨by omega, by omega⟩
  | cons t L ih =>
    intro i1 j1 k1 ca cb hca hcb hch
    obtain ⟨i2, j2, k2⟩ := t
    unfold ChainLe at hch
    rw [mergeLoop]
    by_cases hadj : i1 + k1 = i2 ∧ j1 + k1 = j2
    · rw [if_pos hadj]
      apply ih i1 j1 (k1 + k2) ca cb hca hcb
      have he1 : i1 + (k1 + k2) = i2 + k2 := by omega
      have he2 : j1 + (k1 + k2) = j2 + k2 := by omega
      rw [he1, he2]
      exact hch.2.2
    · rw [if_neg hadj]
      by_cases hk : k1 ≠ 0
      · rw [if_pos hk]
        refine ⟨hca, hcb, ?_⟩
        exact ih i2 j2 k2 (i1 + k1) (j1 + k1) hch.1 hch.2.1 hch.2.2
      · rw [if_neg hk]
        simp only [List.nil_append]
        exact ih i2 j2 k2 ca cb (by omega) (by omega) hch.2.2

/-- Appending the sentinel turns a bounded chain into an exact one. -/
theorem ChainLe_sentinel {la lb : ℕ} :
    ∀ (L : List (ℕ × ℕ × ℕ)) (ca cb : ℕ), ChainLe ca cb L la lb →
      ChainEnd la lb ca cb (L ++ [(la, lb, 0)]) := by
  intro L
  induction L with
  | nil =>
    intro ca cb h
    unfold ChainLe at h
    exact ⟨h.1, h.2, by omega, by omega⟩
  | cons t L ih =>
    intro ca cb h
    obtain ⟨ai, bj, sz⟩ := t
    unfold ChainLe at h
    exact ⟨h.1, h.2.1, ih _ _ h.2.2⟩

/-- get_matching_blocks produces an exact chain from the origin to the
pair of lengths. -/
theorem getMatchingBlocks_chain (a b : List α) (junk : α → Bool) :
    ChainEnd a.length b.length 0 0 (getMatchingBlocks a b junk) := by
  unfold getMatchingBlocks
  apply ChainLe_sentinel
  apply mergeLoop_chainLe _ 0 0 0 0 0 (le_refl _) (le_refl _)
  simp only [Nat.add_zero]
  exact blocksRec_chainLe a b junk a.length 0 a.length 0 b.length
    (by omega) (by omega) (by omega)

theorem ChainEnd_le {la lb : ℕ} :
    ∀ (L : List (ℕ × ℕ × ℕ)) (ca cb : ℕ), ChainEnd la lb ca cb L →
      ca ≤ la ∧ cb ≤ lb := by
  intro L
  induction L with
  | nil =>
    intro ca cb h
    unfold ChainEnd at h
    omega
  | cons t rest ih =>
    intro ca cb h
    obtain ⟨ti, tj, tk⟩ := t
    unfold ChainEnd at h
    have hr := ih _ _ h.2.2
    omega

/-- The opcode loop over an exact chain reproduces both sides from the
cursor onward. -/
theorem opcodesLoop_reconstruct (a b : List α) (la lb : ℕ) :
    ∀ (blocks : List (ℕ × ℕ × ℕ)) (ca cb : ℕ),
      ChainEnd la lb ca cb blocks →
      oldTokens a (opcodesLoop ca cb blocks) = sliceL a ca la ∧
      newTokens b (opcodesLoop ca cb blocks) = sliceL b cb lb := by
  intro blocks
  induction blocks with
  | nil =>
    intro ca cb h
    unfold ChainEnd at h
    rw [opcodesLoop]
    unfold oldTokens newTokens
    rw [h.1, h.2, sliceL_empty, sliceL_empty]
    simp
  | cons t rest ih =>
    intro ca cb h
    obtain ⟨ai, bj, sz⟩ := t
    unfold ChainEnd at h
    obtain ⟨hca, hcb, hrest⟩ := h
    have hends : ai + sz ≤ la ∧ bj + sz ≤ lb := ChainEnd_le rest _ _ hrest
    have hih := ih (ai + sz) (bj + sz) hrest
    rw [opcodesLoop]
    unfold oldTokens newTokens at *
    rw [List.flatMap_append, List.flatMap_append,
      List.flatMap_append, List.flatMap_append]
    rw [hih.1, hih.2]
    constructor
    · have hgap : (if ca < ai ∧ cb < bj then [(DTag.replace, ca, ai, cb, bj)]
          else if ca < ai then [(DTag.delete, ca, ai, cb, bj)]
          else if cb < bj then [(DTag.insert, ca, ai, cb, bj)]
          else []).flatMap (fun op =>
            if op.1 = DTag.insert then [] else sliceL a op.2.1 op.2.2.1) =
          sliceL a ca ai := by
        by_cases h1 : ca < ai ∧ cb < bj
        · rw [if_pos h1]; simp
        · rw [if_neg h1]
          by_cases h2 : ca < ai
          · rw [if_pos h2]; simp
          · rw [if_neg h2]
            have hcaai : ca = ai := by omega
            by_cases h3 : cb < bj
            · rw [if_pos h3]
              simp [hcaai, sliceL_empty]
            · rw [if_neg h3]
              rw [hcaai, sliceL_empty]
              simp
      have heqs : (if sz ≠ 0 then [(DTag.equal, ai, ai + sz, bj, bj + sz)]
          else []).flatMap (fun op =>
            if op.1 = DTag.insert then [] else sliceL a op.2.1 op.2.2.1) =
          sliceL a ai (ai + sz) := by
        by_cases hsz : sz ≠ 0
        · rw [if_pos hsz]; simp
        · rw [if_neg hsz]
          simp only [ne_eq, not_not] at hsz
          rw [hsz]
          rw [Nat.add_zero, sliceL_empty]
          simp
      rw [hgap, heqs,
        sliceL_append a ca ai (ai + sz) (by omega) (by omega),
        sliceL_append a ca (ai + sz) la (by omega) (by omega)]
    · have hgap : (if ca < ai ∧ cb < bj then [(DTag.replace, ca, ai, cb, bj)]
          else if ca < ai then [(DTag.delete, ca, ai, cb, bj)]
          else if cb < bj then [(DTag.insert, ca, ai, cb, bj)]
          else []).flatMap (fun op =>
            if op.1 = DTag.delete then [] else sliceL b op.2.2.2.1 op.2.2.2.2) =
          sliceL b cb bj := by
        by_cases h1 : ca < ai ∧ cb < bj
        · rw [if_pos h1]; simp
        · rw [if_neg h1]
          by_cases h2 : ca < ai
          · rw [if_pos h2]
            have hcbbj : cb = bj := by omega
            simp [hcbbj, sliceL_empty]
          · rw [if_neg h2]
            by_cases h3 : cb < bj
            · rw [if_pos h3]; simp
            · rw [if_neg h3]
              have hcbbj : cb = bj := by omega
              rw [hcbbj, sliceL_empty]
              simp
      have heqs : (if sz ≠ 0 then [(DTag.equal, ai, ai + sz, bj, bj + sz)]
          else []).flatMap (fun op =>
            if op.1 = DTag.delete then [] else sliceL b op.2.2.2.1 op.2.2.2.2) =
          sliceL b bj (bj + sz) := by
        by_cases hsz : sz ≠ 0
        · rw [if_pos hsz]; simp
        · rw [if_neg hsz]
          simp only [ne_eq, not_not] at hsz
          rw [hsz]
          rw [Nat.add_zero, sliceL_empty]
          simp
      rw [hgap, heqs,
        sliceL_append b cb bj (bj + sz) (by omega) (by omega),
        sliceL_append b cb (bj + sz) lb (by omega) (by omega)]

/-- get_opcodes reconstruction: the old-side spans rebuild a and the
new-side spans rebuild b. -/
theorem getOpcodes_reconstruct (a b : List α) (junk : α → Bool) :
    oldTokens a (getOpcodes a b junk) = a ∧
    newTokens b (getOpcodes a b junk) = b := by
  unfold getOpcodes
  have h := opcodesLoop_reconstruct a b a.length b.length
    (getMatchingBlocks a b junk) 0 0 (getMatchingBlocks_chain a b junk)
  rw [show sliceL a 0 a.length = a from sliceL_full a,
    show sliceL b 0 b.length = b from sliceL_full b] at h
  exact h

end Coverage

section EqualDiff

variable {α : Type} [DecidableEq α]

theorem runFrom_self (x : List α) : runFrom x x = x.length := by
  induction x with
  | nil => rfl
  | cons c xs ih =>
    rw [runFrom, if_pos rfl, ih]
    rfl

theorem lcsAt_self (c : List α) (hne : c ≠ []) :
    lcsAt c c = (0, 0, c.length) := by
  have hlen : 0 < c.length := List.length_pos.mpr hne
  have hmem : ((0 : ℕ), (0 : ℕ)) ∈ pairsL 0 c.length 0 c.length :=
    mem_pairsL.mpr ⟨le_refl _, hlen, le_refl _, hlen⟩
  apply lcsAt_eq_of hmem
  · simp [runFrom_self]
  · exact hlen
  · intro p hp
    have h := runFrom_le (c.drop p.1) (c.drop p.2)
    rw [List.length_drop] at h
    omega
  · intro p hp hlx
    exfalso
    unfold lexLt at hlx
    omega

theorem matchingBlocksRec_empty (a b : List α) (junk : α → Bool)
    {alo ahi : ℕ} (blo bhi : ℕ) (h : ahi ≤ alo) :
    matchingBlocksRec a b junk alo ahi blo bhi = [] := by
  unfold matchingBlocksRec
  rw [show ahi - alo = 0 from by omega]
  rfl

/-- Aligning a list with itself without junk yields the single full
equal opcode (or nothing when empty). -/
theorem getOpcodes_self (t : List α) :
    getOpcodes t t (fun _ => false) =
      if t.length = 0 then []
      else [(DTag.equal, 0, t.length, 0, t.length)] := by
  by_cases hn : t.length = 0
  · rw [if_pos hn]
    have ht : t = [] := List.length_eq_zero.mp hn
    subst ht
    rfl
  · rw [if_neg hn]
    have hne : t ≠ [] := fun h => hn (by rw [h]; rfl)
    have hflm : findLongestMatch t t (fun _ => false) 0 t.length 0 t.length =
        (0, 0, t.length) := by
      rw [findLongestMatch_eq_lcsAt t t (fun _ => false) (fun v => rfl)
        (le_refl _) (le_refl _), sliceL_full, lcsAt_self t hne]
      simp
    have hblocks : matchingBlocksRec t t (fun _ => false) 0 t.length 0 t.length =
        [(0, 0, t.length)] := by
      rw [matchingBlocksRec_eq, hflm]
      dsimp only
      rw [if_pos (by omega : 0 < t.length)]
      rw [matchingBlocksRec_empty t t _ 0 0 (le_refl 0),
        matchingBlocksRec_empty t t _ (0 + t.length) t.length (by omega)]
      simp
    unfold getOpcodes getMatchingBlocks
    rw [hblocks, mergeLoop]
    rw [if_pos ⟨rfl, rfl⟩, mergeLoop]
    rw [if_pos (by omega : 0 + t.length ≠ 0)]
    simp only [Nat.zero_add, List.cons_append, List.nil_append]
    simp [opcodesLoop, hn]

theorem htmlEscape_flatten (t : List (List Char)) :
    t.flatMap htmlEscape = htmlEscape t.flatten := by
  induction t with
  | nil => rfl
  | cons x rest ih =>
    rw [List.flatMap_cons, List.flatten_cons, ih]
    unfold htmlEscape
    rw [List.flatMap_append]

end EqualDiff

/-- Stable descending insertion on the similarity score. -/
def insDesc (p : List Char × ℚ) : List (List Char × ℚ) → List (List Char × ℚ)
  | [] => [p]
  | q :: rest => if q.2 < p.2 then p :: q :: rest else q :: insDesc p rest

/-- Stable sort by non-increasing score. -/
def sortDesc (l : List (List Char × ℚ)) : List (List Char × ℚ) :=
  l.foldr insDesc []

/-- The candidate-ranking block of src/app.py (lines 743-746): score
every candidate with str_similarity(candidate, query), sort by
non-increasing score, and keep the first limit entries.  The tie order
of the pandas sort is not specified; the model uses a stable sort. -/
def rankCandidates (q : List Char) (cs : List (List Char)) (limit : ℕ) :
    List (List Char × ℚ) :=
  (sortDesc (cs.map (fun c => (c, str_similarity (some c) (some q))))).take limit

section RankSort

theorem insDesc_mem (p : List Char × ℚ) :
    ∀ (l : List (List Char × ℚ)) (x : List Char × ℚ),
      x ∈ insDesc p l ↔ x = p ∨ x ∈ l := by
  intro l
  induction l with
  | nil =>
    intro x
    rw [insDesc]
    simp
  | cons q rest ih =>
    intro x
    rw [insDesc]
    by_cases hc : q.2 < p.2
    · rw [if_pos hc]
      simp only [List.mem_cons]
    · rw [if_neg hc]
      simp only [List.mem_cons, ih]
      tauto

theorem insDesc_length (p : List Char × ℚ) :
    ∀ (l : List (List Char × ℚ)),
      (insDesc p l).length = l.length + 1 := by
  intro l
  induction l with
  | nil => rfl
  | cons q rest ih =>
    rw [insDesc]
    by_cases hc : q.2 < p.2
    · rw [if_pos hc]
      simp
    · rw [if_neg hc]
      simp [ih]

theorem insDesc_pairwise (p : List Char × ℚ) :
    ∀ (l : List (List Char × ℚ)),
      l.Pairwise (fun u v => v.2 ≤ u.2) →
      (insDesc p l).Pairwise (fun u v => v.2 ≤ u.2) := by
  intro l
  induction l with
  | nil =>
    intro _
    rw [insDesc]
    simp
  | cons q rest ih =>
    intro h
    have hq := List.pairwise_cons.mp h
    rw [insDesc]
    by_cases hc : q.2 < p.2
    · rw [if_pos hc]
      apply List.pairwise_cons.mpr
      refine ⟨?_, h⟩
      intro x hx
      rcases List.mem_cons.mp hx with rfl | hx
      · exact le_of_lt hc
      · have := hq.1 x hx
        exact le_trans this (le_of_lt hc)
    · rw [if_neg hc]
      apply List.pairwise_cons.mpr
      constructor
      · intro x hx
        rcases (insDesc_mem p rest x).mp hx with rfl | hx
        · exact le_of_not_lt hc
        · exact hq.1 x hx
      · exact ih hq.2

theorem sortDesc_mem (l : List (List Char × ℚ)) (x : List Char × ℚ) :
    x ∈ sortDesc l ↔ x ∈ l := by
  unfold sortDesc
  induction l with
  | nil => simp
  | cons q rest ih =>
    rw [List.foldr_cons]
    rw [insDesc_mem]
    simp only [List.mem_cons]
    rw [ih]

theorem sortDesc_length (l : List (List Char × ℚ)) :
    (sortDesc l).length = l.length := by
  unfold sortDesc
  induction l with
  | nil => rfl
  | cons q rest ih =>
    rw [List.foldr_cons, insDesc_length, ih]
    rfl

theorem sortDesc_pairwise (l : List (List Char × ℚ)) :
    (sortDesc l).Pairwise (fun u v => v.2 ≤ u.2) := by
  unfold sortDesc
  induction l with
  | nil => simp
  | cons q rest ih =>
    rw [List.foldr_cons]
    exact insDesc_pairwise q _ ih

end RankSort

section TokStrip

/-- Concatenating the tokens rebuilds the input exactly. -/
theorem tokenize_flatten (s : List Char) :
    (tokenize_keep_spaces s).flatten = s := by
  have hgen : ∀ (n : ℕ) (t : List Char), t.length ≤ n →
      (tokenize_keep_spaces t).flatten = t := by
    intro n
    induction n with
    | zero =>
      intro t ht
      match t with
      | [] => rfl
    | succ n ih =>
      intro t ht
      match t with
      | [] => rfl
      | c :: rest =>
        rw [tokenize_keep_spaces_cons, List.flatten_cons]
        have hd := length_dropWhile_le (fun d => pyIsSpace d == pyIsSpace c) rest
        simp only [List.length_cons] at ht
        rw [ih _ (by omega), List.cons_append, List.takeWhile_append_dropWhile]
  exact hgen s.length s (le_refl _)

theorem dropWhile_head_not {p : Char → Bool} :
    ∀ (l : List Char) (x : Char) (xs : List Char),
      l.dropWhile p = x :: xs → p x = false := by
  intro l
  induction l with
  | nil => intro x xs h; simp [List.dropWhile] at h
  | cons c rest ih =>
    intro x xs h
    rw [List.dropWhile] at h
    by_cases hp : p c = true
    · rw [hp] at h
      exact ih x xs h
    · simp only [Bool.not_eq_true] at hp
      rw [hp] at h
      simp only at h
      injection h with h1 _
      rw [← h1]
      exact hp

theorem dropWhile_idem (p : Char → Bool) (l : List Char) :
    (l.dropWhile p).dropWhile p = l.dropWhile p := by
  match hl : l.dropWhile p with
  | [] => rfl
  | x :: xs =>
    rw [List.dropWhile]
    rw [dropWhile_head_not l x xs hl]

/-- Python strip is idempotent. -/
theorem pyStrip_idem (s : List Char) : pyStrip (pyStrip s) = pyStrip s := by
  unfold pyStrip
  have h1 : ((((s.dropWhile pyIsSpace).reverse.dropWhile
      pyIsSpace).reverse).dropWhile pyIsSpace) =
      ((s.dropWhile pyIsSpace).reverse.dropWhile pyIsSpace).reverse := by
    match hu : ((s.dropWhile pyIsSpace).reverse.dropWhile pyIsSpace).reverse with
    | [] => rfl
    | y :: ys =>
      rw [List.dropWhile]
      have hy : pyIsSpace y = false := by
        have hsplit : (s.dropWhile pyIsSpace).reverse.takeWhile pyIsSpace ++
            (s.dropWhile pyIsSpace).reverse.dropWhile pyIsSpace =
            (s.dropWhile pyIsSpace).reverse :=
          List.takeWhile_append_dropWhile pyIsSpace (s.dropWhile pyIsSpace).reverse
        have hrev : s.dropWhile pyIsSpace =
            ((s.dropWhile pyIsSpace).reverse.dropWhile pyIsSpace).reverse ++
              ((s.dropWhile pyIsSpace).reverse.takeWhile pyIsSpace).reverse := by
          have h2 := congrArg List.reverse hsplit
          rw [List.reverse_append, List.reverse_reverse] at h2
          exact h2.symm
        rw [hu] at hrev
        match hd : s.dropWhile pyIsSpace with
        | [] => rw [hd] at hrev; simp at hrev
        | z :: zs =>
          rw [hd] at hrev
          have hz := dropWhile_head_not s z zs hd
          simp only [List.cons_append] at hrev
          injection hrev with hzy _
          rw [hzy] at hz
          exact hz
      rw [hy]
  rw [h1, List.reverse_reverse, dropWhile_idem]

/-- to_clean_str is insensitive to surrounding whitespace. -/
theorem to_clean_str_strip (x : List Char) :
    to_clean_str (some (pyStrip x)) = to_clean_str (some x) := by
  show (if (pyStrip (pyStrip x)).map pyLower = nanLower then []
      else pyStrip (pyStrip x)) =
    (if (pyStrip x).map pyLower = nanLower then [] else pyStrip x)
  rw [pyStrip_idem]

end TokStrip

section SimilarityLemmas

/-- If either preprocessed side is empty, str_similarity returns 0. -/
theorem str_similarity_zero (x y : Option (List Char))
    (h : prepSim x = [] ∨ prepSim y = []) : str_similarity x y = 0 := by
  unfold str_similarity
  dsimp only
  rw [if_pos h]

/-- With both preprocessed sides non-empty, str_similarity is the
SequenceMatcher ratio with the autojunk-derived junk set of b. -/
theorem str_similarity_pos (x y : Option (List Char))
    (hna : prepSim x ≠ []) (hnb : prepSim y ≠ []) :
    str_similarity x y =
      smRatioQ (prepSim x) (prepSim y)
        (fun c => (popularJunk (prepSim y)).contains c) := by
  unfold str_similarity
  dsimp only
  rw [if_neg (not_or.mpr ⟨hna, hnb⟩)]

/-- Evaluation form of str_similarity from a computed total matched
length. -/
theorem str_similarity_val (x y : Option (List Char))
    (pa pb : List Char) (m : ℕ)
    (hpa : prepSim x = pa) (hpb : prepSim y = pb)
    (hna : pa ≠ []) (hnb : pb ≠ [])
    (hm : sumKs (getMatchingBlocks pa pb
      (fun c => (popularJunk pb).contains c)) = m) :
    str_similarity x y = 2 * (m : ℚ) / ((pa.length : ℚ) + (pb.length : ℚ)) := by
  rw [str_similarity_pos x y (by rw [hpa]; exact hna) (by rw [hpb]; exact hnb),
    hpa, hpb]
  unfold smRatioQ
  have hl : pa.length + pb.length ≠ 0 := by
    have : 0 < pa.length := List.length_pos.mpr hna
    omega
  rw [if_neg hl, hm]

/-- With both preprocessed sides non-empty and the b side shorter than
200, the autojunk heuristic is inactive and the score is exactly the
Ratcliff/Obershelp ratio of the preprocessed inputs. -/
theorem str_similarity_ro (x y : Option (List Char))
    (hna : prepSim x ≠ []) (hnb : prepSim y ≠ [])
    (hlen : (prepSim y).length < 200) :
    str_similarity x y = roRatioQ (prepSim x) (prepSim y) := by
  rw [str_similarity_pos x y hna hnb]
  have hpj : popularJunk (prepSim y) = [] := by
    unfold popularJunk
    rw [if_neg (by omega)]
  unfold smRatioQ roRatioQ
  have hl : (prepSim x).length + (prepSim y).length ≠ 0 := by
    have : 0 < (prepSim x).length := List.length_pos.mpr hna
    omega
  rw [if_neg hl,
    sumKs_getMatchingBlocks_eq _ _ _ (fun v => by rw [hpj]; rfl)]

end SimilarityLemmas

section DiffLemmas

/-- Every opcode of a list aligned with itself is an equal opcode. -/
theorem getOpcodes_self_all_equal {α : Type} [DecidableEq α] (t : List α) :
    ((getOpcodes t t (fun _ => false)).all
      (fun op => decide (op.1 = DTag.equal))) = true := by
  rw [getOpcodes_self]
  by_cases hn : t.length = 0
  · rw [if_pos hn]
    rfl
  · rw [if_neg hn]
    rfl

/-- diff_old_new_html on two equal inputs: the escaped cleaned string
on both sides. -/
theorem diff_self_eq (s : Option (List Char)) :
    diff_old_new_html s s =
      (htmlEscape (to_clean_str s), htmlEscape (to_clean_str s)) := by
  unfold diff_old_new_html
  dsimp only
  rw [getOpcodes_self]
  by_cases hn : (tokenize_keep_spaces (to_clean_str s)).length = 0
  · rw [if_pos hn]
    have ht : tokenize_keep_spaces (to_clean_str s) = [] :=
      List.length_eq_zero.mp hn
    have hs : to_clean_str s = [] := by
      have hfl := tokenize_flatten (to_clean_str s)
      rw [ht] at hfl
      exact hfl.symm
    rw [hs]
    rfl
  · rw [if_neg hn]
    have hr : renderOps (tokenize_keep_spaces (to_clean_str s))
        (tokenize_keep_spaces (to_clean_str s))
        [(DTag.equal, 0, (tokenize_keep_spaces (to_clean_str s)).length, 0,
          (tokenize_keep_spaces (to_clean_str s)).length)] =
        (escSeg (tokenize_keep_spaces (to_clean_str s)) 0
            (tokenize_keep_spaces (to_clean_str s)).length ++ [],
         escSeg (tokenize_keep_spaces (to_clean_str s)) 0
            (tokenize_keep_spaces (to_clean_str s)).length ++ []) := rfl
    rw [hr]
    simp only [List.append_nil]
    unfold escSeg
    rw [sliceL_full, htmlEscape_flatten, tokenize_flatten]

end DiffLemmas

section ClaimTheorems

/-- Claim C1 (amended): for inputs whose preprocessed (whitespace
normalized, lowercased) forms are non-empty and whose second
preprocessed form has fewer than 200 characters, str_similarity is
exactly the Ratcliff/Obershelp matching ratio of the preprocessed
inputs: twice the total matched length over the sum of the lengths.
The 200-character bound is needed: the implementation enables the
autojunk heuristic of SequenceMatcher, which changes the score on
longer second inputs (see the counterexample). -/
theorem claim_C1_similarity_eq_ro (x y : Option (List Char))
    (hna : prepSim x ≠ []) (hnb : prepSim y ≠ [])
    (hlen : (prepSim y).length < 200) :
    str_similarity x y = roRatioQ (prepSim x) (prepSim y) :=
  str_similarity_ro x y hna hnb hlen

/-- Witness for claim C1: a concrete input pair satisfying the
hypotheses, with the conclusion obtained from the theorem. -/
theorem claim_C1_similarity_eq_ro_witness :
    prepSim (some "abc".toList) ≠ [] ∧ prepSim (some "cab".toList) ≠ [] ∧
    (prepSim (some "cab".toList)).length < 200 ∧
    str_similarity (some "abc".toList) (some "cab".toList) =
      roRatioQ (prepSim (some "abc".toList)) (prepSim (some "cab".toList)) :=
  ⟨by decide, by decide, by decide,
    claim_C1_similarity_eq_ro (some "abc".toList) (some "cab".toList)
      (by decide) (by decide) (by decide)⟩

/-- Claim C2 (amended): the score is symmetric on inputs with equal
preprocessed forms.  Full symmetry fails: SequenceMatcher treats its
two sides asymmetrically (see the counterexample). -/
theorem claim_C2_symm_on_equal_prep (x y : Option (List Char))
    (h : prepSim x = prepSim y) :
    str_similarity x y = str_similarity y x := by
  by_cases hemp : prepSim x = []
  · rw [str_similarity_zero x y (Or.inl hemp),
      str_similarity_zero y x (Or.inr hemp)]
  · have hy : prepSim y ≠ [] := by rw [← h]; exact hemp
    rw [str_similarity_pos x y hemp hy, str_similarity_pos y x hy hemp, h]

/-- Witness for claim C2: two inputs with equal preprocessed forms. -/
theorem claim_C2_symm_on_equal_prep_witness :
    prepSim (some "Ab ".toList) = prepSim (some "ab".toList) ∧
    str_similarity (some "Ab ".toList) (some "ab".toList) =
      str_similarity (some "ab".toList) (some "Ab ".toList) :=
  ⟨by decide,
    claim_C2_symm_on_equal_prep (some "Ab ".toList) (some "ab".toList)
      (by decide)⟩

/-- Counterexample to claim C2 as stated: the score is not symmetric.
For a = "zyppqq" and b = "qqzpp" the score of (a, b) is 6/11 but the
score of (b, a) is 4/11, because SequenceMatcher scans the first
argument against position runs of the second. -/
theorem claim_C2_counterexample :
    str_similarity (some "zyppqq".toList) (some "qqzpp".toList) ≠
      str_similarity (some "qqzpp".toList) (some "zyppqq".toList) := by
  rw [str_similarity_val (some "zyppqq".toList) (some "qqzpp".toList)
      "zyppqq".toList "qqzpp".toList 3 (by decide) (by decide) (by decide)
      (by decide) (by decide),
    str_similarity_val (some "qqzpp".toList) (some "zyppqq".toList)
      "qqzpp".toList "zyppqq".toList 2 (by decide) (by decide) (by decide)
      (by decide) (by decide),
    show ("zyppqq".toList.length) = 6 from by decide,
    show ("qqzpp".toList.length) = 5 from by decide]
  norm_num

/-- Claim C3 (amended): the ranking block keeps min(limit, number of
candidates) entries, in non-increasing score order, and each returned
pair is a candidate together with its score; the score is computed as
str_similarity(candidate, query), candidate first (the claim stated
similarity(query, candidate); the two differ, see the counterexample).
Tie order is modelled as stable; the source delegates tie order to the
pandas sort, which does not guarantee it. -/
theorem claim_C3_rank_shape (q : List Char) (cs : List (List Char))
    (limit : ℕ) (p : List Char × ℚ)
    (hp : p ∈ rankCandidates q cs limit) :
    (rankCandidates q cs limit).length = min limit cs.length ∧
    (rankCandidates q cs limit).Pairwise (fun u v => v.2 ≤ u.2) ∧
    p.1 ∈ cs ∧ p.2 = str_similarity (some p.1) (some q) := by
  refine ⟨?_, ?_, ?_⟩
  · unfold rankCandidates
    rw [List.length_take, sortDesc_length, List.length_map]
  · unfold rankCandidates
    exact (sortDesc_pairwise _).sublist (List.take_sublist _ _)
  · unfold rankCandidates at hp
    have hmem := (sortDesc_mem _ p).mp ((List.take_sublist _ _).subset hp)
    obtain ⟨c, hc, hcp⟩ := List.mem_map.mp hmem
    constructor
    · rw [← hcp]
      exact hc
    · rw [← hcp]

/-- Witness for claim C3: a concrete one-candidate ranking. -/
theorem claim_C3_rank_shape_witness :
    (("a".toList, str_similarity (some "a".toList) (some "a".toList)) ∈
      rankCandidates "a".toList ["a".toList] 1) ∧
    ((rankCandidates "a".toList ["a".toList] 1).length =
        min 1 (["a".toList] : List (List Char)).length ∧
      (rankCandidates "a".toList ["a".toList] 1).Pairwise
        (fun u v => v.2 ≤ u.2) ∧
      "a".toList ∈ (["a".toList] : List (List Char)) ∧
      str_similarity (some "a".toList) (some "a".toList) =
        str_similarity (some "a".toList) (some "a".toList)) :=
  ⟨List.mem_cons_self _ _,
    claim_C3_rank_shape "a".toList ["a".toList] 1
      ("a".toList, str_similarity (some "a".toList) (some "a".toList))
      (List.mem_cons_self _ _)⟩

/-- Counterexample to claim C3 as stated: the returned score is
str_similarity(candidate, query), not similarity(query, candidate);
the two differ because the score is asymmetric. -/
theorem claim_C3_counterexample :
    (rankCandidates "qqzpp".toList ["zyppqq".toList] 1).map (fun p => p.2) ≠
      [str_similarity (some "qqzpp".toList) (some "zyppqq".toList)] := by
  have hrank : rankCandidates "qqzpp".toList ["zyppqq".toList] 1 =
      [("zyppqq".toList,
        str_similarity (some "zyppqq".toList) (some "qqzpp".toList))] := rfl
  rw [hrank]
  simp only [List.map_cons, List.map_nil, ne_eq, List.cons.injEq, and_true]
  rw [str_similarity_val (some "zyppqq".toList) (some "qqzpp".toList)
      "zyppqq".toList "qqzpp".toList 3 (by decide) (by decide) (by decide)
      (by decide) (by decide),
    str_similarity_val (some "qqzpp".toList) (some "zyppqq".toList)
      "qqzpp".toList "zyppqq".toList 2 (by decide) (by decide) (by decide)
      (by decide) (by decide),
    show ("zyppqq".toList.length) = 6 from by decide,
    show ("qqzpp".toList.length) = 5 from by decide]
  norm_num

/-- Claim C4 (amended): the reconstruction invariant holds for the
cleaned token streams: concatenating the a-side spans of the equal,
delete and replace opcodes yields exactly the token stream of the
cleaned old input, and likewise on the b side for the cleaned new
input.  It fails for the raw inputs because diff_old_new_html first
strips surrounding whitespace and maps the literal "nan" to the empty
string (see the counterexample). -/
theorem claim_C4_reconstruction (old newS : Option (List Char)) :
    oldTokens (tokenize_keep_spaces (to_clean_str old))
      (getOpcodes (tokenize_keep_spaces (to_clean_str old))
        (tokenize_keep_spaces (to_clean_str newS)) (fun _ => false)) =
      tokenize_keep_spaces (to_clean_str old) ∧
    newTokens (tokenize_keep_spaces (to_clean_str newS))
      (getOpcodes (tokenize_keep_spaces (to_clean_str old))
        (tokenize_keep_spaces (to_clean_str newS)) (fun _ => false)) =
      tokenize_keep_spaces (to_clean_str newS) :=
  getOpcodes_reconstruct _ _ _

/-- Counterexample to claim C4 as stated: for old = " x" the equal and
deleted spans reconstruct only the stripped token stream ["x"], not the
token stream of the old string itself. -/
theorem claim_C4_counterexample :
    (oldTokens (tokenize_keep_spaces (to_clean_str (some " x".toList)))
      (getOpcodes (tokenize_keep_spaces (to_clean_str (some " x".toList)))
        (tokenize_keep_spaces (to_clean_str (some "x".toList)))
        (fun _ => false))).flatten ≠ " x".toList := by
  decide

/-- Claim C5 (amended): on equal inputs the diff classifies every
opcode as equal and returns the HTML-escaped cleaned input on both
sides.  The literal claim diff(s, s) = (s, s) fails: the outputs are
cleaned and HTML-escaped (see the counterexample). -/
theorem claim_C5_diff_self (s : Option (List Char)) :
    diff_old_new_html s s =
      (htmlEscape (to_clean_str s), htmlEscape (to_clean_str s)) ∧
    ((getOpcodes (tokenize_keep_spaces (to_clean_str s))
        (tokenize_keep_spaces (to_clean_str s)) (fun _ => false)).all
      (fun op => decide (op.1 = DTag.equal))) = true :=
  ⟨diff_self_eq s, getOpcodes_self_all_equal _⟩

/-- Counterexample to claim C5 as stated: diff("a&b", "a&b") returns
the escaped pair ("a&amp;b", "a&amp;b"), not ("a&b", "a&b"). -/
theorem claim_C5_counterexample :
    diff_old_new_html (some "a&b".toList) (some "a&b".toList) ≠
      ("a&b".toList, "a&b".toList) := by
  decide

/-- Claim C6 (confirmed): concatenating the tokens of
_tokenize_keep_spaces reconstructs the input exactly. -/
theorem claim_C6_tokenize_roundtrip (s : List Char) :
    (tokenize_keep_spaces s).flatten = s :=
  tokenize_flatten s

/-- Claim C7 (confirmed): str_similarity is total on None and string
inputs, None is coerced to the empty string, and an empty normalized
side forces the result 0. -/
theorem claim_C7_empty_zero (x y : Option (List Char))
    (h : prepSim x = [] ∨ prepSim y = []) :
    str_similarity x y = 0 ∧ to_clean_str none = [] :=
  ⟨str_similarity_zero x y h, rfl⟩

/-- Witness for claim C7: a None left input. -/
theorem claim_C7_empty_zero_witness :
    (prepSim none = [] ∨ prepSim (some "a".toList) = []) ∧
    (str_similarity none (some "a".toList) = 0 ∧ to_clean_str none = []) :=
  ⟨Or.inl (by decide),
    claim_C7_empty_zero none (some "a".toList) (Or.inl (by decide))⟩

/-- Claim C8 (confirmed): two inputs that agree after whitespace
normalization and lowercasing score exactly 1 when non-empty. -/
theorem claim_C8_equal_prep_one (x y : Option (List Char))
    (h : prepSim x = prepSim y) (hne : prepSim x ≠ []) :
    str_similarity x y = 1 := by
  have hy : prepSim y ≠ [] := by rw [← h]; exact hne
  rw [str_similarity_pos x y hne hy, h]
  exact smRatioQ_diag _ _ hy

/-- Witness for claim C8: the Chardonnay scenario of the spec. -/
theorem claim_C8_equal_prep_one_witness :
    prepSim (some "Chardonnay 2020".toList) =
      prepSim (some "chardonnay   2020".toList) ∧
    prepSim (some "Chardonnay 2020".toList) ≠ [] ∧
    str_similarity (some "Chardonnay 2020".toList)
      (some "chardonnay   2020".toList) = 1 :=
  ⟨by decide, by decide,
    claim_C8_equal_prep_one (some "Chardonnay 2020".toList)
      (some "chardonnay   2020".toList) (by decide) (by decide)⟩

/-- Claim C9 (confirmed): diff_old_new_html is insensitive to leading
and trailing whitespace of either input. -/
theorem claim_C9_diff_strip (o n : List Char) :
    diff_old_new_html (some (pyStrip o)) (some (pyStrip n)) =
      diff_old_new_html (some o) (some n) := by
  unfold diff_old_new_html
  rw [to_clean_str_strip, to_clean_str_strip]

/-- Claim C10 (confirmed): an input that strips and lowercases to the
literal "nan" is treated as empty: it cleans to the empty string, both
similarity directions give 0, and the diff tokenizer sees no tokens. -/
theorem claim_C10_nan_empty (x : List Char) (y : Option (List Char))
    (h : (pyStrip x).map pyLower = nanLower) :
    to_clean_str (some x) = [] ∧
    str_similarity (some x) y = 0 ∧ str_similarity y (some x) = 0 ∧
    tokenize_keep_spaces (to_clean_str (some x)) = [] := by
  have hc : to_clean_str (some x) = [] := by
    unfold to_clean_str
    dsimp only
    rw [if_pos h]
  have hp : prepSim (some x) = [] := by
    unfold prepSim normalize_spaces
    rw [hc]
    rfl
  refine ⟨hc, str_similarity_zero _ _ (Or.inl hp),
    str_similarity_zero _ _ (Or.inr hp), ?_⟩
  rw [hc]
  rfl

/-- Witness for claim C10: the input " NaN ". -/
theorem claim_C10_nan_empty_witness :
    (pyStrip " NaN ".toList).map pyLower = nanLower ∧
    (to_clean_str (some " NaN ".toList) = [] ∧
      str_similarity (some " NaN ".toList) (some "a".toList) = 0 ∧
      str_similarity (some "a".toList) (some " NaN ".toList) = 0 ∧
      tokenize_keep_spaces (to_clean_str (some " NaN ".toList)) = []) :=
  ⟨by decide,
    claim_C10_nan_empty " NaN ".toList (some "a".toList) (by decide)⟩

/-- First input of the C1 counterexample. -/
def ca0 : List Char := "zczab".toList

/-- Second input of the C1 counterexample: 200 characters, 196 of them
z, so the autojunk heuristic of SequenceMatcher marks z as junk. -/
def cb0 : List Char := "ab".toList ++ List.replicate 195 'z' ++ "czf".toList

/-- The junk predicate the autojunk heuristic produces on cb0. -/
def junkZ : Char → Bool := fun c => List.contains ['z'] c

set_option maxHeartbeats 2000000 in
/-- Counterexample to claim C1 as stated: on a 200-character second
input the autojunk heuristic suppresses matches through the popular
character z, so str_similarity gives 4/205 while the
Ratcliff/Obershelp ratio of the preprocessed inputs is 6/205. -/
theorem claim_C1_counterexample :
    str_similarity (some ca0) (some cb0) ≠
      roRatioQ (prepSim (some ca0)) (prepSim (some cb0)) := by
  have hscan : scanBest ca0 cb0 junkZ 0 ca0.length 0 cb0.length =
      (3, 0, 2) := by
    have hmem : ((4 : ℕ), (1 : ℕ)) ∈ pairsL 0 ca0.length 0 cb0.length :=
      mem_pairsL.mpr ⟨by decide, by decide, by decide, by decide⟩
    have h := scanBest_eq_of hmem
      (show runlen ca0 cb0 junkZ 0 0 4 1 = 2 from by decide)
      (by decide)
      (forall_pairsL_iff.mpr (by decide))
      (forall_pairsL_iff.mpr (by decide))
    rw [h]
  have hflm : findLongestMatch ca0 cb0 junkZ 0 ca0.length 0 cb0.length =
      (3, 0, 2) := by
    unfold findLongestMatch
    dsimp only
    rw [hscan]
    decide
  have hrec : matchingBlocksRec ca0 cb0 junkZ 0 ca0.length 0 cb0.length =
      [(3, 0, 2)] := by
    rw [matchingBlocksRec_eq, hflm]
    dsimp only
    rw [if_pos (by decide : (0 : ℕ) < 2)]
    rw [show matchingBlocksRec ca0 cb0 junkZ 0 3 0 0 = [] from by decide,
      show matchingBlocksRec ca0 cb0 junkZ (3 + 2) ca0.length (0 + 2)
        cb0.length = [] from by decide]
    rfl
  have hjunk : (fun c => (popularJunk cb0).contains c) = junkZ := by
    have hpj : popularJunk cb0 = ['z'] := by decide
    funext c
    rw [hpj]
    rfl
  have hm : sumKs (getMatchingBlocks ca0 cb0
      (fun c => (popularJunk cb0).contains c)) = 2 := by
    rw [hjunk]
    unfold getMatchingBlocks
    rw [hrec]
    decide
  have hsim : str_similarity (some ca0) (some cb0) =
      2 * ((2 : ℕ) : ℚ) / ((ca0.length : ℚ) + (cb0.length : ℚ)) :=
    str_similarity_val _ _ ca0 cb0 2 (by decide) (by decide) (by decide)
      (by decide) hm
  have hlcs : lcsAt ca0 cb0 = (0, 196, 3) := by
    have hmem : ((0 : ℕ), (196 : ℕ)) ∈ pairsL 0 ca0.length 0 cb0.length :=
      mem_pairsL.mpr ⟨by decide, by decide, by decide, by decide⟩
    exact lcsAt_eq_of hmem
      (show runFrom (ca0.drop 0) (cb0.drop 196) = 3 from by decide)
      (by decide)
      (forall_pairsL_iff.mpr (by decide))
      (forall_pairsL_iff.mpr (by decide))
  have hro : roMatched ca0 cb0 = 3 := by
    rw [roMatched_eq, hlcs]
    dsimp only
    rw [if_pos (by decide : (0 : ℕ) < 3)]
    rw [show roMatched (ca0.take 0) (cb0.take 196) = 0 from by decide,
      show roMatched (ca0.drop (0 + 3)) (cb0.drop (196 + 3)) = 0
        from by decide]
  have hroQ : roRatioQ (prepSim (some ca0)) (prepSim (some cb0)) =
      2 * ((3 : ℕ) : ℚ) / ((ca0.length : ℚ) + (cb0.length : ℚ)) := by
    rw [show prepSim (some ca0) = ca0 from by decide,
      show prepSim (some cb0) = cb0 from by decide]
    unfold roRatioQ
    rw [hro]
  rw [hsim, hroQ, show ca0.length = 5 from by decide,
    show cb0.length = 200 from by decide]
  norm_num

end ClaimTheorems

end GestSpec
